import Mathlib

/-!
Verification development for the rhymetagger library
(collocation-driven rhyme detection, source file rhymetagger/tagger.py).

Python dicts are modelled as association lists with Python's semantics:
assignment updates an existing key in place or appends a new pair at the
end, and a read of a missing key on a defaultdict inserts the default
value.  Floats are modelled as rationals.  espeak, nltk and file I/O are
external collaborators and stay outside the model.
-/

set_option maxRecDepth 20000

namespace RhymeTagger

universe u v

variable {α : Type u} {β : Type v}

/-- First-match lookup in an association list (Python `d[k]` on a plain dict,
returning `none` where Python would raise `KeyError`). -/
def alookup [DecidableEq α] : List (α × β) → α → Option β
  | [], _ => none
  | (k, v) :: rest, a => if k = a then some v else alookup rest a

/-- Python dict assignment `d[k] = v`: overwrite the entry in place if the key
is present, otherwise append the new pair at the end. -/
def aset [DecidableEq α] : List (α × β) → α → β → List (α × β)
  | [], a, b => [(a, b)]
  | (k, v) :: rest, a, b => if k = a then (k, b) :: rest else (k, v) :: aset rest a b

/-- Keys of a dict, in insertion order. -/
def akeys (d : List (α × β)) : List α := d.map Prod.fst

/-- A defaultdict read `d[k]`: return the stored value if present, otherwise
insert the default value at the end and return it. -/
def getdef [DecidableEq α] (d : List (α × β)) (a : α) (dflt : β) : β × List (α × β) :=
  match alookup d a with
  | some v => (v, d)
  | none => (dflt, d ++ [(a, dflt)])

theorem alookup_aset_self [DecidableEq α] (d : List (α × β)) (a : α) (b : β) :
    alookup (aset d a b) a = some b := by
  induction d with
  | nil => simp [aset, alookup]
  | cons hd tl ih =>
    obtain ⟨k, v⟩ := hd
    by_cases hk : k = a
    · simp [aset, hk, alookup]
    · simp [aset, hk, alookup, ih]

theorem alookup_aset_ne [DecidableEq α] (d : List (α × β)) (a a' : α) (b : β)
    (h : a ≠ a') : alookup (aset d a b) a' = alookup d a' := by
  induction d with
  | nil => simp [aset, alookup, h]
  | cons hd tl ih =>
    obtain ⟨k, v⟩ := hd
    by_cases hk : k = a
    · subst hk
      simp [aset, alookup, h]
    · simp [aset, hk, alookup, ih]

theorem mem_akeys_aset [DecidableEq α] (d : List (α × β)) (a : α) (b : β) (x : α) :
    x ∈ akeys (aset d a b) ↔ x ∈ akeys d ∨ x = a := by
  induction d with
  | nil => simp [aset, akeys]
  | cons hd tl ih =>
    obtain ⟨k, v⟩ := hd
    by_cases hk : k = a
    · subst hk
      simp [aset, akeys]
      tauto
    · simp [aset, hk, akeys] at *
      tauto

theorem alookup_append_left [DecidableEq α] (d₁ d₂ : List (α × β)) (a : α)
    (h : alookup d₁ a ≠ none) : alookup (d₁ ++ d₂) a = alookup d₁ a := by
  induction d₁ with
  | nil => simp [alookup] at h
  | cons hd tl ih =>
    obtain ⟨k, v⟩ := hd
    by_cases hk : k = a
    · simp [alookup, hk]
    · simp [alookup, hk] at *
      exact ih h

theorem alookup_append_right [DecidableEq α] (d₁ d₂ : List (α × β)) (a : α)
    (h : alookup d₁ a = none) : alookup (d₁ ++ d₂) a = alookup d₂ a := by
  induction d₁ with
  | nil => simp [alookup]
  | cons hd tl ih =>
    obtain ⟨k, v⟩ := hd
    by_cases hk : k = a
    · simp [alookup, hk] at h
    · simp [alookup, hk] at *
      exact ih h

theorem alookup_eq_none_iff [DecidableEq α] (d : List (α × β)) (a : α) :
    alookup d a = none ↔ a ∉ akeys d := by
  induction d with
  | nil => simp [alookup, akeys]
  | cons hd tl ih =>
    obtain ⟨k, v⟩ := hd
    by_cases hk : k = a
    · simp [alookup, hk, akeys]
    · simp [alookup, hk, akeys, ih]
      tauto

theorem getdef_snd_lookup [DecidableEq α] (d : List (α × β)) (a : α) (dflt : β) :
    alookup (getdef d a dflt).2 a = some ((getdef d a dflt).1) := by
  unfold getdef
  cases h : alookup d a with
  | some v => simp [h]
  | none => simp [alookup_append_right d _ a h, alookup]

theorem getdef_snd_lookup_ne [DecidableEq α] (d : List (α × β)) (a a' : α) (dflt : β)
    (h : a ≠ a') : alookup (getdef d a dflt).2 a' = alookup d a' := by
  unfold getdef
  cases hl : alookup d a with
  | some v => simp
  | none =>
    cases hl' : alookup d a' with
    | some v' =>
      have : alookup d a' ≠ none := by simp [hl']
      simp [alookup_append_left d _ a' this, hl']
    | none => simp [alookup_append_right d _ a' hl', alookup, h, hl']

theorem getdef_preserves_lookup [DecidableEq α] (d : List (α × β)) (a : α) (dflt : β)
    (x : α) (hx : alookup d x ≠ none) :
    alookup (getdef d a dflt).2 x = alookup d x := by
  unfold getdef
  cases hl : alookup d a with
  | some v => simp
  | none => exact alookup_append_left d _ x hx

theorem getdef_mem_akeys [DecidableEq α] (d : List (α × β)) (a : α) (dflt : β) :
    a ∈ akeys (getdef d a dflt).2 := by
  have := getdef_snd_lookup d a dflt
  by_contra hmem
  rw [← alookup_eq_none_iff] at hmem
  rw [hmem] at this
  exact Option.noConfusion this

theorem mem_akeys_getdef [DecidableEq α] (d : List (α × β)) (a : α) (dflt : β) (x : α) :
    x ∈ akeys (getdef d a dflt).2 ↔ x ∈ akeys d ∨ x = a := by
  unfold getdef
  cases hl : alookup d a with
  | some v =>
    simp only []
    constructor
    · intro h; exact Or.inl h
    · rintro (h | rfl)
      · exact h
      · by_contra hmem
        rw [← alookup_eq_none_iff] at hmem
        rw [hmem] at hl
        exact Option.noConfusion hl
  | none =>
    simp only [akeys, List.map_append, List.mem_append]
    simp [akeys]

/-- Python string comparison `a < b`: code-point lexicographic order. -/
def strLt : List Char → List Char → Bool
  | [], [] => false
  | [], _ :: _ => true
  | _ :: _, [] => false
  | c :: cs, d :: ds =>
    if c.toNat < d.toNat then true
    else if d.toNat < c.toNat then false
    else strLt cs ds

/-- Python `tuple(sorted([a, b]))` on two strings (ascending code-point
lexicographic order; `sorted` is stable, so equal strings keep order). -/
def sortPair (a b : String) : String × String :=
  if strLt b.data a.data then (b, a) else (a, b)

/-- A key of the dynamic tables `self.f`, `self.n`, `self.train_set` and
`self.probs`: Python mixes the strings `"w"`, `"g"`, `"wp"` and integer
component positions in one dict. -/
inductive PKey where
  | str : String → PKey
  | num : Nat → PKey
deriving DecidableEq, Repr

/-- An inner key of `self.f`: words, n-grams and components are plain
strings, word-pair keys are 2-tuples; Python keeps both kinds of key in
the same tables. -/
inductive TKey where
  | s : String → TKey
  | p : String × String → TKey
deriving DecidableEq, Repr

/-- `self.f`: frequencies of words, n-grams, components and word pairs. -/
abbrev FreqTab := List (PKey × List (TKey × Nat))

/-- `self.n`: totals per keyspace. -/
abbrev NTab := List (PKey × Nat)

/-- `self.train_set`: pair counts per keyspace. -/
abbrev TrainSet := List (PKey × List ((String × String) × Nat))

/-- `self.probs`: pair probabilities per keyspace. -/
abbrev Probs := List (PKey × List ((String × String) × ℚ))

/-- `self.rhyme_vocab`: `rhyme_word -> (components, final n-gram)`. -/
abbrev Vocab := List (String × (List String × String))

/-- `rhymes_detected`: a defaultdict from line index to a set of line
indices (sets modelled as duplicate-free lists). -/
abbrev Rhymes := List (Nat × List Nat)

/-- One entry of `self.data`: the tuple `(rhyme_word, poem_id, stanza_id)`
appended per line by `_parse_line`; `none` models a line without a word. -/
structure Line where
  word : Option String
  poem : Nat
  stanza : Nat
deriving DecidableEq, Repr

/-- Settings of the model relevant to the claims (`new_model`). -/
structure Config where
  window : Nat
  syll_max : Nat
  stress : Bool
  vowel_length : Bool
  same_words : Bool
  stanza_limit : Bool
  ngram : Nat
  prob_ipa_min : ℚ
  prob_ngram_min : ℚ
  max_iter : Nat
deriving DecidableEq, Repr

/-- Python falsiness of a rhyme word (`not l[0]`): absent or empty. -/
def wordFalsy (w : Option String) : Bool := w.getD "" = ""

/-- Read a word's entry of `self.rhyme_vocab` (`(components, ngram)`);
every scored word is in the vocabulary by construction of `_parse_line`,
so the default is never reached in the modelled flows. -/
def vocabGet (vocab : Vocab) (w : String) : List String × String :=
  (alookup vocab w).getD ([], "")

/-- Vowel characters of the syllable-peak class in `define_syll_peaks`. -/
def vowelChars : List Char := "iyɨʉɯuɪʏʊeøɤoəɘɵɛœʌɔæɐaăɶɑɒ".data

/-- Vowel length marks (the optional suffix of a vowel). -/
def lengthMarks : List Char := "ːˑ".data

/-- Tie character `chr(865)` marking multichar phonemes. -/
def tiechar : Char := Char.ofNat 865

/-- Syllabicity modifier `chr(809)`. -/
def syllchar : Char := Char.ofNat 809

/-- Primary stress mark U+02C8. -/
def stressChar : Char := Char.ofNat 712

/-- Secondary stress mark U+02CC. -/
def sndStressChar : Char := Char.ofNat 716

/-- Length of a match of one vowel (`[vowels][ːˑ]?`, greedy optional
length mark) at the front of `cs`. -/
def matchVowel : List Char → Option Nat
  | [] => none
  | c :: rest =>
    if c ∈ vowelChars then
      match rest with
      | m :: _ => if m ∈ lengthMarks then some 2 else some 1
      | [] => some 1
    else none

/-- Length of a leftmost match of the syllable-peak alternation
`vowel tie vowel | vowel | . syllchar` at the front of `cs`, trying the
alternatives in order as `re` does. -/
def matchPeak (cs : List Char) : Option Nat :=
  match matchVowel cs with
  | some n1 =>
    match cs.drop n1 with
    | t :: rest2 =>
      if t = tiechar then
        match matchVowel rest2 with
        | some n2 => some (n1 + 1 + n2)
        | none => some n1
      else some n1
    | [] => some n1
  | none =>
    match cs with
    | c :: d :: _ => if d = syllchar ∧ c ≠ Char.ofNat 10 then some 2 else none
    | _ => none

/-- `re.split` with the capturing peak pattern: scan left to right and cut
out each leftmost peak match, so segments and peaks alternate in the
output.  `fuel` bounds the recursion; every step consumes at least one
character, so `fuel = cs.length` always suffices. -/
def resplitAux : Nat → List Char → List Char → List String
  | 0, cs, seg => [String.mk (seg.reverse ++ cs)]
  | fuel + 1, cs, seg =>
    match cs with
    | [] => [String.mk seg.reverse]
    | c :: rest =>
      match matchPeak cs with
      | some n =>
        String.mk seg.reverse :: String.mk (cs.take n) :: resplitAux fuel (cs.drop n) []
      | none => resplitAux fuel rest (c :: seg)

/-- Split a character list on the syllable-peak pattern, keeping the
captured peaks (Python `re.split('(' + self.syllable_peaks + ')', ipa)`). -/
def resplitPeaks (cs : List Char) : List String := resplitAux cs.length cs []

/-- Keep only the suffix after the last primary stress mark
(Python `''.join(ipa.split('ˈ')[-1])`): scanning left to right, reset
the accumulator at each stress mark. -/
def afterLastStress (cs : List Char) : List Char :=
  cs.foldl (fun acc c => if c = stressChar then [] else acc ++ [c]) []

/-- Python `l[-k:]` (note that `l[-0:]` is the whole list). -/
def pyTakeLast (l : List α) (k : Nat) : List α :=
  if k = 0 then l else l.drop (l.length - k)

/-- `_split_ipa_components`: split an IPA transcription into the reversed
list of rhyme components (syllable peaks and consonant clusters). -/
def split_ipa_components (vowel_length stress : Bool) (syll_max : Nat)
    (ipa : String) : List String :=
  -- Delete vowel-length marks if required
  let s1 := if vowel_length then ipa.data else ipa.data.filter (fun c => decide (c ∉ lengthMarks))
  -- Delete stress marks if required
  let s2 := if stress then s1 else s1.filter (fun c => decide (c ≠ stressChar))
  -- Delete blankspaces
  let s3 := s2.filter (fun c => decide (c ≠ ' '))
  -- Remove all before the final stress (if not already deleted)
  let s4 := afterLastStress s3
  -- Split transcription into components
  let components := resplitPeaks s4
  -- Remove first component if empty
  let components := if components.headD "" = "" then components.tail else components
  -- Reduce to required number of components
  let components :=
    if components.length > syll_max then pyTakeLast components (syll_max * 2) else components
  -- Reverse order of components
  components.reverse

/-- Nested defaultdict increment `self.f[x][y] += k`. -/
def finc (f : FreqTab) (x : PKey) (y : TKey) (k : Nat) : FreqTab :=
  let gx := getdef f x []
  let gy := getdef gx.1 y 0
  aset gx.2 x (aset gy.2 y (gy.1 + k))

/-- Defaultdict increment `self.n[x] += k`. -/
def ninc (n : NTab) (x : PKey) (k : Nat) : NTab :=
  let g := getdef n x 0
  aset g.2 x (g.1 + k)

/-- Nested defaultdict increment `self.train_set[x][p] += k`. -/
def tsinc (ts : TrainSet) (x : PKey) (p : String × String) (k : Nat) : TrainSet :=
  let gx := getdef ts x []
  let gp := getdef gx.1 p 0
  aset gx.2 x (aset gp.2 p (gp.1 + k))

/-- Inner window loop of `_overall_frequencies`: count the word pair of
lines `i` and `j` unless the window leaves the dataset, the poem, or
(with `stanza_limit`) the stanza, or the `j`-line has no word. -/
def countPair (cfg : Config) (data : List Line) (l : Line)
    (st : FreqTab × NTab) (j : Nat) : FreqTab × NTab :=
  match data.get? j with
  | none => st
  | some dj =>
    if l.poem ≠ dj.poem ∨ (cfg.stanza_limit ∧ l.stanza ≠ dj.stanza) then st
    else if wordFalsy dj.word then st
    else
      let word_pair := sortPair (l.word.getD "") (dj.word.getD "")
      (finc st.1 (.str "wp") (.p word_pair) 1, ninc st.2 (.str "wp") 1)

/-- Body of `_overall_frequencies` for the `i`-th line: count the word,
its final n-gram and each component, then sweep the forward window. -/
def countLine (cfg : Config) (data : List Line) (vocab : Vocab)
    (st : FreqTab × NTab) (i : Nat) : FreqTab × NTab :=
  match data.get? i with
  | none => st
  | some l =>
    if wordFalsy l.word then st
    else
      let w := l.word.getD ""
      let f1 := finc st.1 (.str "w") (.s w) 1
      let ngram := (vocabGet vocab w).2
      let f2 := finc f1 (.str "g") (.s ngram) 1
      let n1 := ninc st.2 (.str "g") 1
      let components := (vocabGet vocab w).1
      let fn := components.enum.foldl
        (fun acc jc => (finc acc.1 (.num jc.1) (.s jc.2) 1, ninc acc.2 (.num jc.1) 1))
        (f2, n1)
      (List.range' (i + 1) cfg.window).foldl (countPair cfg data l) fn

/-- `_overall_frequencies`: one linear sweep over the dataset. -/
def overall_frequencies (cfg : Config) (data : List Line) (vocab : Vocab)
    (f : FreqTab) (n : NTab) : FreqTab × NTab :=
  (List.range data.length).foldl (countLine cfg data vocab) (f, n)

/-- One component position of the `_add_to_train_set` loop. -/
def trainStep (components1 components2 : List String) (occurrences : Nat)
    (acc : TrainSet) (ic : Nat × String) : TrainSet :=
  if ic.1 ≥ components2.length then acc
  else tsinc acc (.num ic.1)
    (sortPair (components1.getD ic.1 "") (components2.getD ic.1 "")) occurrences

/-- `_add_to_train_set`: add a pair of words to the training set, both the
n-gram pair and the positionwise component pairs.  The Python read
`self.f['wp'][(w1, w2)]` probes the *unsorted* tuple on a defaultdict, so
a missing pair key is inserted into `self.f['wp']` with count 0. -/
def add_to_train_set (vocab : Vocab) (f : FreqTab) (ts : TrainSet)
    (w1 w2 : String) : FreqTab × TrainSet :=
  let components1 := (vocabGet vocab w1).1
  let components2 := (vocabGet vocab w2).1
  let ngram1 := (vocabGet vocab w1).2
  let ngram2 := (vocabGet vocab w2).2
  let gwp := getdef f (.str "wp") []
  let gocc := getdef gwp.1 (.p (w1, w2)) 0
  let occurrences := gocc.1
  let f2 := aset gwp.2 (.str "wp") gocc.2
  -- Add ngram-pair
  let ts1 := tsinc ts (.str "g") (sortPair ngram1 ngram2) occurrences
  -- Add individual component-pairs
  let ts2 := components1.enum.foldl (trainStep components1 components2 occurrences) ts1
  (f2, ts2)

/-- Value equality of two inner probability tables under Python `==`:
same keys, same values. -/
def innerEqB (d1 d2 : List ((String × String) × ℚ)) : Bool :=
  d1.all (fun kv => decide (alookup d2 kv.1 = some kv.2)) &&
  d2.all (fun kv => decide (alookup d1 kv.1 = some kv.2))

/-- Python `==` on the nested probability dicts (`self.probs` against the
saved copy): the same keyspace keys, with equal inner tables — an empty
inner table still counts as a key. -/
def probsEqB (p1 p2 : Probs) : Bool :=
  p1.all (fun kv => match alookup p2 kv.1 with
    | some d => innerEqB kv.2 d
    | none => false) &&
  p2.all (fun kv => match alookup p1 kv.1 with
    | some d => innerEqB kv.2 d
    | none => false)

/-- Read `self.f[x][y]` inside `_probabilities`.  (The defaultdict would
materialise a missing entry with the same value 0; that side effect on
`self.f` is not observable through any claim, so the read is pure.) -/
def fval (f : FreqTab) (x : PKey) (y : TKey) : Nat :=
  (alookup ((alookup f x).getD []) y).getD 0

/-- Read `self.n[x]` inside `_probabilities`. -/
def nval (n : NTab) (x : PKey) : Nat := (alookup n x).getD 0

/-- Store `self.probs[x][key] = v` on the defaultdict of dicts. -/
def pset (p : Probs) (x : PKey) (k : String × String) (v : ℚ) : Probs :=
  aset p x (aset ((alookup p x).getD []) k v)

/-- Total occurrences of one keyspace in the train set
(`nt = sum(self.train_set[x].values())`). -/
def tsxTotal (d : List ((String × String) × Nat)) : ℚ :=
  ((d.map Prod.snd).sum : Nat)

/-- The probability stored for one pair by `_probabilities`:
`ft_ab / (ft_ab + fca * fcb)` with `ft_ab` the pair's relative frequency
in the train set and `fca`, `fcb` the corpus relative frequencies. -/
def probVal (f : FreqTab) (n : NTab) (x : PKey) (nt : ℚ)
    (kv : (String × String) × Nat) : ℚ :=
  -- Relative frequency of pair in train set
  let ft_ab : ℚ := (kv.2 : ℚ) / nt
  -- Relative frequency of both pair items in the entire corpus
  let fca : ℚ := (fval f x (.s kv.1.1) : ℚ) / (nval n x : ℚ)
  let fcb : ℚ := (fval f x (.s kv.1.2) : ℚ) / (nval n x : ℚ)
  -- Probability that A and B rhyme based on co-occurrence of a and b
  ft_ab / (ft_ab + fca * fcb)

/-- Inner loop of `_probabilities` over the pairs of one keyspace. -/
def estimateKeyspace (f : FreqTab) (n : NTab) (acc : Probs)
    (xd : PKey × List ((String × String) × Nat)) : Probs :=
  xd.2.foldl (fun acc2 kv =>
    pset acc2 xd.1 (sortPair kv.1.1 kv.1.2) (probVal f n xd.1 (tsxTotal xd.2) kv)) acc

/-- `_probabilities`: keep the previous table, rebuild `self.probs` from
the training set, and report improvement iff the two nested dicts differ
under Python `==`. -/
def probabilities (f : FreqTab) (n : NTab) (ts : TrainSet) (probs : Probs) :
    Probs × Bool :=
  -- Store copy of probabilities from previous iterations
  let probs_previous := probs
  -- Empty the container and iterate over types in the train set
  let newProbs := ts.foldl (estimateKeyspace f n) []
  (newProbs, !probsEqB newProbs probs_previous)

/-- One position of the `_rhyme_score` loop.  The read `self.probs[i]` is
a defaultdict access, so a missing position key is inserted as an empty
table. -/
def scoreStep (components1 components2 : List String)
    (st : ℚ × ℚ × Probs) (ic : Nat × String) : ℚ × ℚ × Probs :=
  if ic.1 ≥ components2.length then st
  else
    let gd := getdef st.2.2 (.num ic.1) []
    let tab := gd.1
    let pr := gd.2
    let c1 := components1.getD ic.1 ""
    let c2 := components2.getD ic.1 ""
    -- If probability of components pair is known, get its prob;
    -- otherwise fall back to 0.99 for equal components, else 0.0001
    let p : ℚ := match alookup tab (sortPair c1 c2) with
      | some p => p
      | none => if c1 = c2 then 99 / 100 else 1 / 10000
    (st.1 * p, st.2.1 * (1 - p), pr)

/-- `_rhyme_score`: combine per-position component-pair probabilities
into one score; the updated `probs` is returned alongside the score. -/
def rhyme_score (vocab : Vocab) (probs : Probs) (w1 w2 : String) : ℚ × Probs :=
  let components1 := (vocabGet vocab w1).1
  let components2 := (vocabGet vocab w2).1
  -- If all components are the same, simply return score = 1
  if components1 = components2 then (1, probs)
  else
    let st := components1.enum.foldl (scoreStep components1 components2) (1, 1, probs)
    -- Return overall probability
    if st.1 + st.2.1 > 0 then (st.1 / (st.1 + st.2.1), st.2.2) else (0, st.2.2)

/-- `_ngram_score`: probability based on the final n-grams.  The read
`self.probs['g']` is a defaultdict access, inserting the key if absent. -/
def ngram_score (vocab : Vocab) (probs : Probs) (w1 w2 : String) : ℚ × Probs :=
  let ngram1 := (vocabGet vocab w1).2
  let ngram2 := (vocabGet vocab w2).2
  let gd := getdef probs (.str "g") []
  let tab := gd.1
  let pr := gd.2
  match alookup tab (sortPair ngram1 ngram2) with
  | some p => (p, pr)
  | none => if ngram1 = ngram2 then (99 / 100, pr) else (1 / 10000, pr)

/-- `rhymes_detected[i].add(j)` on the defaultdict of sets. -/
def addRhyme (r : Rhymes) (i j : Nat) : Rhymes :=
  let g := getdef r i []
  if j ∈ g.1 then g.2 else aset g.2 i (g.1 ++ [j])

/-- Line `j` rhymes with line `i` in the map `r`. -/
def linked (r : Rhymes) (i j : Nat) : Prop :=
  ∃ s, alookup r i = some s ∧ j ∈ s

/-- Executable version of `linked`. -/
def linkedB (r : Rhymes) (i j : Nat) : Bool :=
  ((alookup r i).getD []).contains j

/-- Combined skip condition of `_detect_rhymes` (end of dataset, poem
boundary, stanza boundary with `stanza_limit`, equal rhyme words with
`same_words` off). -/
def pairSkip (cfg : Config) (data : List Line) (l : Line) (j : Nat) : Bool :=
  match data.get? j with
  | none => true
  | some dj =>
    decide (l.poem ≠ dj.poem) ||
    (cfg.stanza_limit && decide (l.stanza ≠ dj.stanza)) ||
    (!cfg.same_words && decide (l.word = dj.word))

/-- Phase-1 body of `_detect_rhymes` for line `i` and window line `j`:
score the pair, link it when above `prob_ipa_min`, then annotate distant
rhymes (the local transitive closure). -/
def phase1Body (cfg : Config) (data : List Line) (vocab : Vocab) (i : Nat) (l : Line)
    (st : Rhymes × Probs) (j : Nat) : Rhymes × Probs :=
  if pairSkip cfg data l j then st
  else
    let dj := (data.get? j).getD ⟨none, 0, 0⟩
    -- Skip if no word at all in j-line
    if wordFalsy dj.word then st
    else
      -- Get rhyme score based on components
      let sc := rhyme_score vocab st.2 (l.word.getD "") (dj.word.getD "")
      let pr := sc.2
      if sc.1 > cfg.prob_ipa_min then
        -- Add j to i-line and i to j-line
        let r1 := addRhyme (addRhyme st.1 i j) j i
        -- Annotate distant rhymes
        let ks := (alookup r1 i).getD []
        let r2 := ks.foldl (fun acc k =>
          if k ≠ j then addRhyme (addRhyme acc k j) j k else acc) r1
        (r2, pr)
      else (st.1, pr)

/-- Phase-2 body of `_detect_rhymes` (n-gram fallback) for line `i` and
window line `j`: same skips plus any `j` already present in the map; link
without transitive closure. -/
def phase2Body (cfg : Config) (data : List Line) (vocab : Vocab) (i : Nat) (l : Line)
    (st : Rhymes × Probs) (j : Nat) : Rhymes × Probs :=
  if pairSkip cfg data l j || (akeys st.1).contains j then st
  else
    let dj := (data.get? j).getD ⟨none, 0, 0⟩
    if wordFalsy dj.word then st
    else
      let sc := ngram_score vocab st.2 (l.word.getD "") (dj.word.getD "")
      let pr := sc.2
      if sc.1 > cfg.prob_ngram_min then
        (addRhyme (addRhyme st.1 i j) j i, pr)
      else (st.1, pr)

/-- `_detect_rhymes` body for one line `i`: phase 1 over the window, then
the n-gram fallback when `ngram` is enabled and `i` has no rhymes yet. -/
def detectLine (cfg : Config) (data : List Line) (vocab : Vocab) (useNgram : Bool)
    (st : Rhymes × Probs) (i : Nat) : Rhymes × Probs :=
  match data.get? i with
  | none => st
  | some l =>
    if wordFalsy l.word then st
    else
      let st1 := (List.range' (i + 1) cfg.window).foldl (phase1Body cfg data vocab i l) st
      if !useNgram then st1
      else if (akeys st1.1).contains i then st1
      else (List.range' (i + 1) cfg.window).foldl (phase2Body cfg data vocab i l) st1

/-- Update step at the end of `_detect_rhymes` in training mode: walk the
detected rhymes and add every pair with `i ≤ j` to the training set once. -/
def updateTrainSet (vocab : Vocab) (data : List Line) (r : Rhymes)
    (f : FreqTab) (ts : TrainSet) : FreqTab × TrainSet :=
  r.foldl (fun acc e =>
    e.2.foldl (fun acc2 j =>
      if e.1 > j then acc2
      else
        let wi := (((data.get? e.1).getD ⟨none, 0, 0⟩).word).getD ""
        let wj := (((data.get? j).getD ⟨none, 0, 0⟩).word).getD ""
        add_to_train_set vocab acc2.1 acc2.2 wi wj) acc) (f, ts)

/-- Result of `_detect_rhymes`: the rhymes map plus the tables it may
have modified. -/
structure DetectResult where
  rhymes : Rhymes
  probs : Probs
  f : FreqTab
  ts : TrainSet
deriving DecidableEq, Repr

/-- `_detect_rhymes`: sweep all lines; in update mode feed the detected
pairs back into the training set (which also touches `self.f['wp']`); in
output mode leave frequency and training tables unchanged and hand the
rhymes map to the output formatter. -/
def detect_rhymes (cfg : Config) (data : List Line) (vocab : Vocab)
    (useNgram update : Bool) (probs : Probs) (f : FreqTab) (ts : TrainSet) :
    DetectResult :=
  let swept := (List.range data.length).foldl (detectLine cfg data vocab useNgram) ([], probs)
  if update then
    let upd := updateTrainSet vocab data swept.1 f ts
    ⟨swept.1, swept.2, upd.1, upd.2⟩
  else ⟨swept.1, swept.2, f, ts⟩

/-- Mutable training state threaded through the loop of `train_model`. -/
structure TrainSt where
  f : FreqTab
  n : NTab
  ts : TrainSet
  probs : Probs
deriving DecidableEq, Repr

/-- What the training loop announces when it stops. -/
inductive TrainOutcome where
  | equilibrium
  | noEquilibrium
deriving DecidableEq, Repr

/-- Rebuild step of the training loop: run `_detect_rhymes` in update
mode, with the n-gram phase iff `self.ngram` is nonzero and the next
iteration number has reached it. -/
def detectStep (cfg : Config) (data : List Line) (vocab : Vocab)
    (iteration : Nat) (st : TrainSt) : TrainSt :=
  let useNg := decide (cfg.ngram ≠ 0) && decide (iteration + 1 ≥ cfg.ngram)
  let res := detect_rhymes cfg data vocab useNg true st.probs st.f st.ts
  ⟨res.f, st.n, res.ts, res.probs⟩

/-- The iteration loop of `train_model`: estimate probabilities; announce
*equilibrium* when the comparison reports no improvement; announce *no
equilibrium* when the last iteration still improved; otherwise rebuild
the training set and continue.  `remaining` counts the iterations left,
so `remaining + iteration` is always `max_iter` at call sites. -/
def trainLoopAux (cfg : Config) (data : List Line) (vocab : Vocab) :
    Nat → Nat → TrainSt → TrainSt × Option TrainOutcome
  | 0, _, st => (st, none)
  | remaining + 1, iteration, st =>
    let est := probabilities st.f st.n st.ts st.probs
    let st1 : TrainSt := ⟨st.f, st.n, st.ts, est.1⟩
    if !est.2 then (st1, some .equilibrium)
    else if remaining = 0 then (st1, some .noEquilibrium)
    else trainLoopAux cfg data vocab remaining (iteration + 1)
      (detectStep cfg data vocab iteration st1)

/-- The iteration phase of `train_model`, starting from the state left by
`_overall_frequencies` and `_collocations`. -/
def train_iterations (cfg : Config) (data : List Line) (vocab : Vocab)
    (st : TrainSt) : TrainSt × Option TrainOutcome :=
  trainLoopAux cfg data vocab cfg.max_iter 0 st

/-- One unconditional loop step: estimate probabilities, then rebuild the
training set. -/
def stepOnce (cfg : Config) (data : List Line) (vocab : Vocab)
    (iteration : Nat) (st : TrainSt) : TrainSt :=
  detectStep cfg data vocab iteration
    ⟨st.f, st.n, st.ts, (probabilities st.f st.n st.ts st.probs).1⟩

/-- The state the training loop would see at the start of iteration
`iteration + j` if no stop condition fired before it. -/
def loopStFrom (cfg : Config) (data : List Line) (vocab : Vocab) :
    Nat → TrainSt → Nat → TrainSt
  | _, st, 0 => st
  | iteration, st, j + 1 =>
    loopStFrom cfg data vocab (iteration + 1) (stepOnce cfg data vocab iteration st) j

/-- Apostrophe character, written by Python `str()` of a string tuple. -/
def quoteChar : Char := Char.ofNat 39

/-- Modelled from the spec: ujson stringification of tuple dict keys in
`save_model` ("Pair keys are stringified sorted 2-tuples"), i.e. Python
`str` of the tuple, valid for strings without quotes or backslashes. -/
def strOfPair (p : String × String) : String :=
  String.mk ('(' :: quoteChar :: p.1.data ++ quoteChar :: ',' :: ' ' ::
    quoteChar :: p.2.data ++ [quoteChar, ')'])

/-- ujson stringification of an outer probs key: integer positions become
their decimal digits, string keys stay themselves. -/
def strOfPKey : PKey → String
  | .str s => s
  | .num k => toString k

/-- The `probs` object of the JSON file written by `save_model`. -/
def saveProbs (p : Probs) : List (String × List (String × ℚ)) :=
  p.map (fun kv => (strOfPKey kv.1, kv.2.map (fun e => (strOfPair e.1, e.2))))

/-- `ast.literal_eval` (`make_tuple`) on a stringified pair of plain
strings: parse the tuple shape back; `none` on any other shape. -/
def parsePairStr (s : String) : Option (String × String) :=
  match s.data with
  | '(' :: q1 :: rest =>
    if q1 = quoteChar then
      let x := rest.takeWhile (fun c => decide (c ≠ quoteChar))
      match rest.drop x.length with
      | _ :: ',' :: ' ' :: q2 :: rest2 =>
        if q2 = quoteChar then
          let y := rest2.takeWhile (fun c => decide (c ≠ quoteChar))
          match rest2.drop y.length with
          | [_, ')'] => some (String.mk x, String.mk y)
          | _ => none
        else none
      | _ => none
    else none
  | _ => none

/-- The test `re.search('^[0-9]$', x)` applied by `load_model` to outer
probs keys: exactly one decimal digit. -/
def isSingleDigit (x : String) : Bool :=
  match x.data with
  | [c] => c.isDigit
  | _ => false

/-- Python `int(x)` on a decimal-digit string. -/
def pyInt (x : String) : Nat :=
  x.data.foldl (fun acc c => acc * 10 + (c.toNat - 48)) 0

/-- The probs-loading loop of `load_model`: parse pair keys back into
tuples; convert the outer key to an integer only when it is a single
digit, otherwise keep it as a string key. -/
def loadProbs (m : List (String × List (String × ℚ))) : Probs :=
  m.foldl (fun acc x =>
    x.2.foldl (fun acc2 y =>
      let key : PKey := if isSingleDigit x.1 then .num (pyInt x.1) else .str x.1
      pset acc2 key ((parsePairStr y.1).getD ("", "")) y.2) acc) []

/-- The attributes of a `RhymeTagger` instance relevant to the
unloaded-model check: `self.probs` exists only after `new_model` or
`load_model` has run (`none` models `hasattr(self, 'probs')` false). -/
structure TaggerSt where
  probs : Option Probs
deriving DecidableEq, Repr

/-- `new_model`: among other containers it initialises
`self.probs = defaultdict(dict)`, an empty table. -/
def new_model : TaggerSt := ⟨some []⟩

/-- The guard at the top of `tag`: raise the unloaded-model exception iff
the instance has no `probs` attribute. -/
def tagRaisesUnloaded (t : TaggerSt) : Bool := t.probs.isNone

theorem afterLastStress_no_stress_aux (cs acc : List Char)
    (h : stressChar ∉ acc) :
    stressChar ∉ cs.foldl (fun acc c => if c = stressChar then [] else acc ++ [c]) acc := by
  induction cs generalizing acc with
  | nil => exact h
  | cons c rest ih =>
    by_cases hc : c = stressChar
    · simp only [List.foldl_cons, hc, if_pos rfl]
      exact ih [] (by simp)
    · simp only [List.foldl_cons, if_neg hc]
      refine ih (acc ++ [c]) ?_
      intro hmem
      rcases List.mem_append.mp hmem with h1 | h1
      · exact h h1
      · simp at h1
        exact hc h1.symm

theorem afterLastStress_no_stress (cs : List Char) :
    stressChar ∉ afterLastStress cs := by
  exact afterLastStress_no_stress_aux cs [] (by simp)

theorem resplitAux_chars (fuel : Nat) :
    ∀ (cs seg : List Char) (s : String), s ∈ resplitAux fuel cs seg →
      ∀ c ∈ s.data, c ∈ seg ∨ c ∈ cs := by
  induction fuel with
  | zero =>
    intro cs seg s hs c hc
    simp only [resplitAux, List.mem_singleton] at hs
    subst hs
    simp only [String.data] at hc
    rcases List.mem_append.mp hc with h1 | h1
    · exact Or.inl (List.mem_reverse.mp h1)
    · exact Or.inr h1
  | succ fuel ih =>
    intro cs seg s hs c hc
    match cs, hs with
    | [], hs =>
      simp only [resplitAux, List.mem_singleton] at hs
      subst hs
      simp only [String.data] at hc
      exact Or.inl (List.mem_reverse.mp hc)
    | c0 :: rest, hs =>
      simp only [resplitAux] at hs
      cases hpk : matchPeak (c0 :: rest) with
      | some n =>
        rw [hpk] at hs
        rcases List.mem_cons.mp hs with h1 | h1
        · subst h1
          simp only [String.data] at hc
          exact Or.inl (List.mem_reverse.mp hc)
        · rcases List.mem_cons.mp h1 with h2 | h2
          · subst h2
            simp only [String.data] at hc
            exact Or.inr (List.take_subset n _ hc)
          · rcases ih _ _ _ h2 c hc with h3 | h3
            · exact absurd h3 (List.not_mem_nil c)
            · exact Or.inr (List.drop_subset n _ h3)
      | none =>
        rw [hpk] at hs
        rcases ih _ _ _ hs c hc with h3 | h3
        · rcases List.mem_cons.mp h3 with h4 | h4
          · subst h4
            exact Or.inr (List.mem_cons_self _ _)
          · exact Or.inl h4
        · exact Or.inr (List.mem_cons_of_mem _ h3)

theorem resplitPeaks_chars (cs : List Char) (s : String) (hs : s ∈ resplitPeaks cs) :
    ∀ c ∈ s.data, c ∈ cs := by
  intro c hc
  rcases resplitAux_chars cs.length cs [] s hs c hc with h | h
  · exact absurd h (List.not_mem_nil c)
  · exact h

theorem pyTakeLast_subset (l : List α) (k : Nat) : pyTakeLast l k ⊆ l := by
  unfold pyTakeLast
  by_cases hk : k = 0
  · simp [hk]
  · simp only [if_neg hk]
    exact List.drop_subset _ _

/-- C5 (amended): the extractor never leaves the primary stress mark in a
component — when `stress` is false it is deleted, otherwise everything up
to the last stress mark (the mark included) is cut off.  The secondary
stress mark, by contrast, is not removed (see the counterexample). -/
theorem claim5_amended (vowel_length stress : Bool) (syll_max : Nat) (ipa : String)
    (comp : String) (hmem : comp ∈ split_ipa_components vowel_length stress syll_max ipa) :
    stressChar ∉ comp.data := by
  intro hchar
  simp only [split_ipa_components, List.mem_reverse] at hmem
  set s1 := if vowel_length then ipa.data else ipa.data.filter (fun c => decide (c ∉ lengthMarks)) with hs1
  set s3 := (if stress then s1 else s1.filter (fun c => decide (c ≠ stressChar))).filter
    (fun c => decide (c ≠ ' ')) with hs3
  have hsplit : comp ∈ resplitPeaks (afterLastStress s3) := by
    set comps := resplitPeaks (afterLastStress s3) with hcomps
    set comps1 := if comps.headD "" = "" then comps.tail else comps with hcomps1
    have hsub1 : comps1 ⊆ comps := by
      rw [hcomps1]
      split_ifs
      · intro x hx
        exact List.mem_of_mem_tail hx
      · exact fun x hx => hx
    by_cases hlen : comps1.length > syll_max
    · simp only [hcomps1.symm, hcomps.symm, if_pos hlen] at hmem
      exact hsub1 (pyTakeLast_subset comps1 (syll_max * 2) hmem)
    · simp only [hcomps1.symm, hcomps.symm, if_neg hlen] at hmem
      exact hsub1 hmem
  have := resplitPeaks_chars (afterLastStress s3) comp hsplit stressChar hchar
  exact afterLastStress_no_stress s3 this

/-- C5 counterexample: the secondary stress mark U+02CC is *not* removed
by `_split_ipa_components`; on the IPA input `ˌab` it survives as a whole
component of the returned fingerprint. -/
theorem claim5_counterexample :
    "ˌ" ∈ split_ipa_components true true 2 "ˌab" ∧
    sndStressChar ∈ "ˌ".data := by
  constructor
  · decide
  · decide

/-- Witness for `claim5_amended` at a concrete input. -/
theorem claim5_witness :
    "t" ∈ split_ipa_components true true 2 "ˈbiːt" ∧ stressChar ∉ "t".data :=
  ⟨by decide, claim5_amended true true 2 "ˈbiːt" "t" (by decide)⟩

/-- C9 counterexample: `new_model` already creates the `probs` attribute,
so `tag` straight after `new_model` (with no training) does *not* raise
the unloaded-model error. -/
theorem claim9_counterexample : tagRaisesUnloaded new_model = false := rfl

/-- C9 (amended): the unloaded-model error fires exactly when the
instance has no `probs` attribute at all — i.e. before any of
`new_model`, `load_model` (or `train_model`, which presupposes
`new_model`) has run; after `new_model` alone `tag` proceeds with the
empty probability table. -/
theorem claim9_amended :
    (∀ t : TaggerSt, tagRaisesUnloaded t = true ↔ t.probs = none) ∧
    new_model.probs = some [] := by
  constructor
  · intro t
    cases t with
    | mk probs =>
      cases probs <;> simp [tagRaisesUnloaded]
  · rfl

/-- C8: `load_model` recognises numeric position keys with the regexp
`^[0-9]$`, which matches single digits only.  A model whose `probs`
contain component position 10 reloads with the entries stored under the
*string* key `"10"` instead of the integer 10, so save followed by load
does not reproduce the table (single-digit positions and `"g"` do
round-trip). -/
theorem claim8_roundtrip_failure :
    loadProbs (saveProbs [(.num 10, [(("a", "b"), 1/2)])]) =
      [(.str "10", [(("a", "b"), 1/2)])] ∧
    (akeys (loadProbs (saveProbs [(.num 10, [(("a", "b"), 1/2)])])) = [.str "10"] ∧
      PKey.str "10" ≠ PKey.num 10) ∧
    loadProbs (saveProbs [(.num 3, [(("c", "d"), 1/3)]), (.str "g", [(("aa", "bb"), 2/3)])]) =
      [(.num 3, [(("c", "d"), 1/3)]), (.str "g", [(("aa", "bb"), 2/3)])] := by
  refine ⟨rfl, ⟨rfl, fun h => PKey.noConfusion h⟩, rfl⟩

theorem alookup_mem [DecidableEq α] (d : List (α × β)) (a : α) (v : β)
    (h : alookup d a = some v) : (a, v) ∈ d := by
  induction d with
  | nil => simp [alookup] at h
  | cons hd tl ih =>
    obtain ⟨k, w⟩ := hd
    by_cases hk : k = a
    · subst hk
      simp [alookup] at h
      subst h
      exact List.mem_cons_self _ _
    · simp [alookup, hk] at h
      exact List.mem_cons_of_mem _ (ih h)

theorem pset_lookup_self (p : Probs) (x : PKey) (k : String × String) (v : ℚ) :
    alookup (pset p x k v) x = some (aset ((alookup p x).getD []) k v) :=
  alookup_aset_self p x _

theorem pset_lookup_ne (p : Probs) (x x' : PKey) (k : String × String) (v : ℚ)
    (h : x ≠ x') : alookup (pset p x k v) x' = alookup p x' :=
  alookup_aset_ne p x x' _ h

theorem foldl_pset_lookup_ne (x x' : PKey) (h : x ≠ x')
    (g : (String × String) × Nat → ℚ) :
    ∀ (d : List ((String × String) × Nat)) (acc : Probs),
      alookup (d.foldl (fun a kv => pset a x (sortPair kv.1.1 kv.1.2) (g kv)) acc) x' =
        alookup acc x' := by
  intro d
  induction d with
  | nil => intro acc; rfl
  | cons kv rest ih =>
    intro acc
    simp only [List.foldl_cons]
    rw [ih]
    exact pset_lookup_ne acc x x' _ _ h

theorem foldl_pset_inner (x : PKey) (g : (String × String) × Nat → ℚ) :
    ∀ (d : List ((String × String) × Nat)) (acc : Probs),
      (alookup (d.foldl (fun a kv => pset a x (sortPair kv.1.1 kv.1.2) (g kv)) acc) x).getD [] =
        d.foldl (fun t kv => aset t (sortPair kv.1.1 kv.1.2) (g kv)) ((alookup acc x).getD []) := by
  intro d
  induction d with
  | nil => intro acc; rfl
  | cons kv rest ih =>
    intro acc
    simp only [List.foldl_cons]
    rw [ih]
    rw [pset_lookup_self]
    rfl

theorem estimateKeyspace_lookup_ne (f : FreqTab) (n : NTab) (acc : Probs)
    (xd : PKey × List ((String × String) × Nat)) (x' : PKey) (h : xd.1 ≠ x') :
    alookup (estimateKeyspace f n acc xd) x' = alookup acc x' :=
  foldl_pset_lookup_ne xd.1 x' h (probVal f n xd.1 (tsxTotal xd.2)) xd.2 acc

theorem foldl_estimate_preserve (f : FreqTab) (n : NTab) :
    ∀ (rest : TrainSet) (acc : Probs) (x : PKey), x ∉ akeys rest →
      alookup (rest.foldl (estimateKeyspace f n) acc) x = alookup acc x := by
  intro rest
  induction rest with
  | nil => intro acc x _; rfl
  | cons yd tl ih =>
    intro acc x hx
    simp only [akeys, List.map_cons, List.mem_cons] at hx
    push_neg at hx
    simp only [List.foldl_cons]
    rw [ih _ x (by simpa [akeys] using hx.2)]
    exact estimateKeyspace_lookup_ne f n acc yd x (fun hc => hx.1 hc.symm)

theorem estimate_build (f : FreqTab) (n : NTab) :
    ∀ (ts : TrainSet) (acc : Probs) (x : PKey) (tsx : List ((String × String) × Nat)),
      (akeys ts).Nodup → alookup ts x = some tsx → alookup acc x = none →
      (alookup (ts.foldl (estimateKeyspace f n) acc) x).getD [] =
        tsx.foldl (fun t kv => aset t (sortPair kv.1.1 kv.1.2)
          (probVal f n x (tsxTotal tsx) kv)) [] := by
  intro ts
  induction ts with
  | nil => intro acc x tsx _ hx _; simp [alookup] at hx
  | cons yd tl ih =>
    intro acc x tsx hnd hx hacc
    simp only [akeys, List.map_cons, List.nodup_cons] at hnd
    obtain ⟨yk, yv⟩ := yd
    by_cases hy : yk = x
    · subst hy
      have hyv : tsx = yv := by
        have h0 : alookup ((yk, yv) :: tl) yk = some yv := by simp [alookup]
        rw [h0] at hx
        exact (Option.some.injEq _ _ ▸ hx).symm
      subst hyv
      simp only [List.foldl_cons]
      rw [foldl_estimate_preserve f n tl _ yk (by simpa [akeys] using hnd.1)]
      have h2 := foldl_pset_inner yk (probVal f n yk (tsxTotal tsx)) tsx acc
      rw [hacc] at h2
      exact h2
    · simp only [alookup, if_neg hy] at hx
      simp only [List.foldl_cons]
      refine ih _ x tsx hnd.2 hx ?_
      rw [estimateKeyspace_lookup_ne f n acc (yk, yv) x hy]
      exact hacc

theorem build_aset_preserve (g : (String × String) × Nat → ℚ) :
    ∀ (d : List ((String × String) × Nat)) (t : List ((String × String) × ℚ))
      (ab : String × String),
      (∀ kv ∈ d, sortPair kv.1.1 kv.1.2 = kv.1) → ab ∉ akeys d →
      alookup (d.foldl (fun t kv => aset t (sortPair kv.1.1 kv.1.2) (g kv)) t) ab =
        alookup t ab := by
  intro d
  induction d with
  | nil => intro t ab _ _; rfl
  | cons kv rest ih =>
    intro t ab hsorted hab
    simp only [akeys, List.map_cons, List.mem_cons] at hab
    push_neg at hab
    simp only [List.foldl_cons]
    rw [ih _ ab (fun kv' h => hsorted kv' (List.mem_cons_of_mem _ h))
      (by simpa [akeys] using hab.2)]
    rw [hsorted kv (List.mem_cons_self _ _)]
    exact alookup_aset_ne t kv.1 ab (g kv) (fun hc => hab.1 hc.symm)

theorem build_aset_lookup (g : (String × String) × Nat → ℚ) :
    ∀ (d : List ((String × String) × Nat)) (t0 : List ((String × String) × ℚ))
      (ab : String × String) (v : Nat),
      (akeys d).Nodup → (∀ kv ∈ d, sortPair kv.1.1 kv.1.2 = kv.1) →
      alookup d ab = some v →
      alookup (d.foldl (fun t kv => aset t (sortPair kv.1.1 kv.1.2) (g kv)) t0) ab =
        some (g (ab, v)) := by
  intro d
  induction d with
  | nil => intro t0 ab v _ _ hab; simp [alookup] at hab
  | cons kv rest ih =>
    intro t0 ab v hnd hsorted hab
    simp only [akeys, List.map_cons, List.nodup_cons] at hnd
    by_cases hk : kv.1 = ab
    · have hv : kv.2 = v := by
        have : alookup (kv :: rest) ab = some v := hab
        obtain ⟨k1, v1⟩ := kv
        simp only at hk
        subst hk
        simpa [alookup] using this
      simp only [List.foldl_cons]
      rw [build_aset_preserve g rest _ ab
        (fun kv' h => hsorted kv' (List.mem_cons_of_mem _ h))
        (by rw [← hk]; simpa [akeys] using hnd.1)]
      rw [hsorted kv (List.mem_cons_self _ _), hk]
      rw [alookup_aset_self]
      have : (ab, v) = kv := by
        obtain ⟨k1, v1⟩ := kv
        simp only at hk hv
        rw [hk, hv]
      rw [this]
    · obtain ⟨k1, v1⟩ := kv
      simp only at hk
      simp only [alookup, if_neg hk] at hab
      simp only [List.foldl_cons]
      exact ih _ ab v hnd.2 (fun kv' h => hsorted kv' (List.mem_cons_of_mem _ h)) hab

/-- C1: for every keyspace `x` and pair `(a, b)` in the training set, the
estimator stores `p_x[(a,b)] = ft_ab / (ft_ab + fc_a * fc_b)` with
`ft_ab = t_x[(a,b)] / T_x` (`T_x` the sum of all counts of `t_x`) and
`fc_a = f_x[a] / n_x`, `fc_b = f_x[b] / n_x`.  The well-formedness
hypotheses (duplicate-free sorted keys) hold for every table the code
builds; nonzero totals keep the rational model aligned with Python's
float division. -/
theorem claim1_probability_formula (f : FreqTab) (n : NTab) (ts : TrainSet) (p : Probs)
    (x : PKey) (tsx : List ((String × String) × Nat)) (a b : String) (v : Nat)
    (houter : (akeys ts).Nodup)
    (hx : alookup ts x = some tsx)
    (hinner : (akeys tsx).Nodup)
    (hsorted : ∀ kv ∈ tsx, sortPair kv.1.1 kv.1.2 = kv.1)
    (_hnt : (tsx.map Prod.snd).sum ≠ 0)
    (_hnx : nval n x ≠ 0)
    (hab : alookup tsx (a, b) = some v) :
    alookup ((alookup (probabilities f n ts p).1 x).getD []) (a, b) =
      some (((v : ℚ) / tsxTotal tsx) /
        ((v : ℚ) / tsxTotal tsx +
          ((fval f x (.s a) : ℚ) / (nval n x : ℚ)) *
          ((fval f x (.s b) : ℚ) / (nval n x : ℚ)))) := by
  have hbuild := estimate_build f n ts [] x tsx houter hx rfl
  show alookup ((alookup (ts.foldl (estimateKeyspace f n) []) x).getD []) (a, b) = _
  rw [hbuild]
  rw [build_aset_lookup (probVal f n x (tsxTotal tsx)) tsx [] (a, b) v hinner hsorted hab]
  rfl

/-- Witness for `claim1_probability_formula` at a concrete training
state. -/
theorem claim1_witness :
    alookup ((alookup (probabilities
        [(.str "g", [(TKey.s "a", 1), (TKey.s "b", 1)])]
        [(.str "g", 4)]
        [(.str "g", [(("a", "b"), 2)])]
        []).1 (.str "g")).getD []) ("a", "b") =
      some (((2 : ℚ) / tsxTotal [(("a", "b"), 2)]) /
        ((2 : ℚ) / tsxTotal [(("a", "b"), 2)] +
          ((fval [(.str "g", [(TKey.s "a", 1), (TKey.s "b", 1)])] (.str "g") (.s "a") : ℚ) /
            (nval [(.str "g", 4)] (.str "g") : ℚ)) *
          ((fval [(.str "g", [(TKey.s "a", 1), (TKey.s "b", 1)])] (.str "g") (.s "b") : ℚ) /
            (nval [(.str "g", 4)] (.str "g") : ℚ)))) :=
  claim1_probability_formula
    [(.str "g", [(TKey.s "a", 1), (TKey.s "b", 1)])] [(.str "g", 4)]
    [(.str "g", [(("a", "b"), 2)])] [] (.str "g") [(("a", "b"), 2)] "a" "b" 2
    (by decide) (by decide) (by decide) (by decide) (by decide) (by decide) (by decide)

theorem getdef_changed [DecidableEq α] (d : List (α × β)) (a : α) (dflt : β) (k : α)
    (h : alookup (getdef d a dflt).2 k ≠ alookup d k) :
    alookup (getdef d a dflt).2 k = some dflt := by
  cases hl : alookup d a with
  | some v =>
    have he : (getdef d a dflt).2 = d := by unfold getdef; rw [hl]
    rw [he] at h
    exact absurd rfl h
  | none =>
    have he : (getdef d a dflt).2 = d ++ [(a, dflt)] := by unfold getdef; rw [hl]
    rw [he] at h ⊢
    by_cases hk : k = a
    · subst hk
      rw [alookup_append_right d _ k hl]
      simp [alookup]
    · cases hdk : alookup d k with
      | some v =>
        rw [alookup_append_left d [(a, dflt)] k (by simp [hdk]), hdk] at h
        simp at h
      | none =>
        rw [alookup_append_right d [(a, dflt)] k hdk] at h
        have hne2 : a ≠ k := fun hc => hk hc.symm
        have hnone : alookup [(a, dflt)] k = none := by simp [alookup, hne2]
        rw [hnone, hdk] at h
        exact absurd rfl h

theorem scoreStep_probs (c1 c2 : List String) (st : ℚ × ℚ × Probs) (ic : Nat × String) :
    (scoreStep c1 c2 st ic).2.2 =
      if ic.1 ≥ c2.length then st.2.2 else (getdef st.2.2 (.num ic.1) []).2 := by
  unfold scoreStep
  split_ifs with h
  · rfl
  · rfl

theorem scoreFold_preserve (c1 c2 : List String) :
    ∀ (l : List (Nat × String)) (st : ℚ × ℚ × Probs) (k : PKey),
      alookup st.2.2 k ≠ none →
      alookup ((l.foldl (scoreStep c1 c2) st)).2.2 k = alookup st.2.2 k := by
  intro l
  induction l with
  | nil => intro st k _; rfl
  | cons ic tl ih =>
    intro st k hk
    simp only [List.foldl_cons]
    have hstep := scoreStep_probs c1 c2 st ic
    by_cases hge : ic.1 ≥ c2.length
    · rw [ih _ k (by rw [hstep, if_pos hge]; exact hk)]
      rw [hstep, if_pos hge]
    · have hpres : alookup (scoreStep c1 c2 st ic).2.2 k = alookup st.2.2 k := by
        rw [hstep, if_neg hge]
        exact getdef_preserves_lookup st.2.2 _ [] k hk
      rw [ih _ k (by rw [hpres]; exact hk), hpres]

theorem scoreFold_new_empty (c1 c2 : List String) :
    ∀ (l : List (Nat × String)) (st : ℚ × ℚ × Probs) (k : PKey),
      alookup ((l.foldl (scoreStep c1 c2) st)).2.2 k ≠ alookup st.2.2 k →
      alookup ((l.foldl (scoreStep c1 c2) st)).2.2 k = some [] := by
  intro l
  induction l with
  | nil => intro st k h; exact absurd rfl h
  | cons ic tl ih =>
    intro st k h
    simp only [List.foldl_cons] at h ⊢
    by_cases heq : alookup (scoreStep c1 c2 st ic).2.2 k = alookup st.2.2 k
    · exact ih _ k (by rw [heq]; exact h)
    · have hstep := scoreStep_probs c1 c2 st ic
      by_cases hge : ic.1 ≥ c2.length
      · rw [hstep, if_pos hge] at heq
        exact absurd rfl heq
      · rw [hstep, if_neg hge] at heq
        have hnew : alookup (scoreStep c1 c2 st ic).2.2 k = some [] := by
          rw [hstep, if_neg hge]
          exact getdef_changed st.2.2 _ [] k heq
        rw [scoreFold_preserve c1 c2 tl _ k (by rw [hnew]; simp)]
        exact hnew

theorem scoreFold_mem_mono (c1 c2 : List String) :
    ∀ (l : List (Nat × String)) (st : ℚ × ℚ × Probs) (k : PKey),
      k ∈ akeys st.2.2 → k ∈ akeys ((l.foldl (scoreStep c1 c2) st)).2.2 := by
  intro l
  induction l with
  | nil => intro st k h; exact h
  | cons ic tl ih =>
    intro st k h
    simp only [List.foldl_cons]
    refine ih _ k ?_
    rw [scoreStep_probs]
    by_cases hge : ic.1 ≥ c2.length
    · rw [if_pos hge]; exact h
    · rw [if_neg hge]
      exact (mem_akeys_getdef st.2.2 _ [] k).mpr (Or.inl h)

theorem scoreFold_mem (c1 c2 : List String) :
    ∀ (l : List (Nat × String)) (st : ℚ × ℚ × Probs) (i : Nat) (s : String),
      (i, s) ∈ l → i < c2.length →
      PKey.num i ∈ akeys ((l.foldl (scoreStep c1 c2) st)).2.2 := by
  intro l
  induction l with
  | nil => intro st i s h _; exact absurd h (List.not_mem_nil _)
  | cons ic tl ih =>
    intro st i s hmem hlt
    simp only [List.foldl_cons]
    rcases List.mem_cons.mp hmem with h1 | h1
    · refine scoreFold_mem_mono c1 c2 tl _ _ ?_
      rw [scoreStep_probs]
      rw [← h1]
      simp only []
      rw [if_neg (by exact Nat.not_le.mpr hlt)]
      exact getdef_mem_akeys st.2.2 _ []
    · exact ih _ i s h1 hlt

theorem mem_enumFrom_of_lt :
    ∀ (l : List α) (n i : Nat), i < l.length → ∃ a, (n + i, a) ∈ l.enumFrom n := by
  intro l
  induction l with
  | nil => intro n i h; simp at h
  | cons hd tl ih =>
    intro n i h
    cases i with
    | zero => exact ⟨hd, by simp [List.enumFrom]⟩
    | succ i =>
      obtain ⟨a, ha⟩ := ih (n + 1) i (by simpa using Nat.lt_of_succ_lt_succ h)
      refine ⟨a, ?_⟩
      have : n + (i + 1) = n + 1 + i := by omega
      rw [this]
      exact List.mem_cons_of_mem _ ha

theorem mem_enum_of_lt (l : List α) (i : Nat) (h : i < l.length) :
    ∃ a, (i, a) ∈ l.enum := by
  have := mem_enumFrom_of_lt l 0 i h
  simpa [List.enum] using this

theorem ite_pair_snd (c : Prop) [Decidable c] (x y : ℚ) (p : Probs) :
    (if c then (x, p) else (y, p)).2 = p := by
  split_ifs <;> rfl

theorem rhyme_score_probs_eq (vocab : Vocab) (probs : Probs) (w1 w2 : String)
    (hne : (vocabGet vocab w1).1 ≠ (vocabGet vocab w2).1) :
    (rhyme_score vocab probs w1 w2).2 =
      (((vocabGet vocab w1).1.enum.foldl
        (scoreStep (vocabGet vocab w1).1 (vocabGet vocab w2).1) (1, 1, probs))).2.2 := by
  unfold rhyme_score
  rw [if_neg hne]
  exact ite_pair_snd _ _ _ _

/-- C10: computing the component rhyme score is not read-only on
`self.probs`.  For distinct fingerprints, every shared component
position `i` below both lengths ends up as a key of `probs` (missing
positions are inserted as empty tables by the defaultdict read), while
every previously stored entry keeps its value; the final conjunct shows
the same mutation reaching the probability table during a
`_detect_rhymes` run in output (tagging) mode. -/
theorem claim10_score_mutates_probs (vocab : Vocab) (probs : Probs) (w1 w2 : String)
    (hne : (vocabGet vocab w1).1 ≠ (vocabGet vocab w2).1) :
    ((∀ i, i < min (vocabGet vocab w1).1.length (vocabGet vocab w2).1.length →
        PKey.num i ∈ akeys (rhyme_score vocab probs w1 w2).2) ∧
      (∀ k, alookup probs k ≠ none →
        alookup (rhyme_score vocab probs w1 w2).2 k = alookup probs k) ∧
      (∀ k, alookup (rhyme_score vocab probs w1 w2).2 k ≠ alookup probs k →
        alookup (rhyme_score vocab probs w1 w2).2 k = some [])) ∧
    (akeys (detect_rhymes ⟨1, 2, true, true, true, false, 0, 95/100, 95/100, 3⟩
        [⟨some "pa", 0, 0⟩, ⟨some "ta", 0, 0⟩]
        [("pa", (["a", "p"], "pa")), ("ta", (["a", "t"], "ta"))]
        false false [] [] []).probs = [.num 0, .num 1]) := by
  constructor
  · rw [rhyme_score_probs_eq vocab probs w1 w2 hne]
    refine ⟨?_, ?_, ?_⟩
    · intro i hi
      obtain ⟨a, ha⟩ := mem_enum_of_lt (vocabGet vocab w1).1 i
        (lt_of_lt_of_le hi (Nat.min_le_left _ _))
      exact scoreFold_mem _ _ _ _ i a ha (lt_of_lt_of_le hi (Nat.min_le_right _ _))
    · intro k hk
      exact scoreFold_preserve _ _ _ _ k hk
    · intro k hk
      exact scoreFold_new_empty _ _ _ _ k hk
  · with_unfolding_all rfl

/-- Witness for `claim10_score_mutates_probs` at a concrete scored pair. -/
theorem claim10_witness :
    (PKey.num 0) ∈ akeys (rhyme_score
      [("pa", (["a", "p"], "pa")), ("ta", (["a", "t"], "ta"))] [] "pa" "ta").2 :=
  ((claim10_score_mutates_probs
    [("pa", (["a", "p"], "pa")), ("ta", (["a", "t"], "ta"))] [] "pa" "ta"
    (by decide)).1.1) 0 (by decide)

/-- Read `self.train_set[x][p]` (0 when absent). -/
def tsval (ts : TrainSet) (x : PKey) (p : String × String) : Nat :=
  (alookup ((alookup ts x).getD []) p).getD 0

/-- Read `self.f['wp'][(w1, w2)]` the way `_add_to_train_set` probes it:
the tuple in the order passed, 0 when absent. -/
def fwpval (f : FreqTab) (w1 w2 : String) : Nat :=
  (alookup ((alookup f (.str "wp")).getD []) (.p (w1, w2))).getD 0

theorem getdef_fst [DecidableEq α] (d : List (α × β)) (a : α) (dflt : β) :
    (getdef d a dflt).1 = (alookup d a).getD dflt := by
  unfold getdef
  cases alookup d a <;> rfl

theorem tsinc_val_self (ts : TrainSet) (x : PKey) (p : String × String) (k : Nat) :
    tsval (tsinc ts x p k) x p = tsval ts x p + k := by
  unfold tsinc tsval
  rw [alookup_aset_self, Option.getD_some, alookup_aset_self, Option.getD_some]
  rw [getdef_fst, getdef_fst]

theorem tsinc_val_ne (ts : TrainSet) (x x' : PKey) (p p' : String × String) (k : Nat)
    (h : x ≠ x' ∨ p ≠ p') : tsval (tsinc ts x p k) x' p' = tsval ts x' p' := by
  unfold tsinc tsval
  by_cases hx : x = x'
  · subst hx
    rcases h with h | h
    · exact absurd rfl h
    · rw [alookup_aset_self, Option.getD_some]
      rw [alookup_aset_ne _ _ _ _ h]
      rw [getdef_snd_lookup_ne _ _ _ _ h]
      rw [getdef_fst]
  · rw [alookup_aset_ne _ _ _ _ hx]
    rw [getdef_snd_lookup_ne _ _ _ _ hx]

theorem trainFold_str (c1 c2 : List String) (occ : Nat) :
    ∀ (l : List (Nat × String)) (acc : TrainSet) (s : String) (p' : String × String),
      tsval (l.foldl (trainStep c1 c2 occ) acc) (.str s) p' = tsval acc (.str s) p' := by
  intro l
  induction l with
  | nil => intro acc s p'; rfl
  | cons ic tl ih =>
    intro acc s p'
    simp only [List.foldl_cons]
    rw [ih]
    unfold trainStep
    split_ifs with h
    · rfl
    · exact tsinc_val_ne acc _ _ _ p' occ (Or.inl (fun hc => PKey.noConfusion hc))

theorem trainFold_pos (c1 c2 : List String) (occ : Nat) :
    ∀ (l : List (Nat × String)) (acc : TrainSet) (i : Nat) (s : String),
      (i, s) ∈ l → (l.map Prod.fst).Nodup → i < c2.length →
      tsval (l.foldl (trainStep c1 c2 occ) acc) (.num i)
          (sortPair (c1.getD i "") (c2.getD i "")) =
        tsval acc (.num i) (sortPair (c1.getD i "") (c2.getD i "")) + occ := by
  intro l
  induction l with
  | nil => intro acc i s h _ _; exact absurd h (List.not_mem_nil _)
  | cons ic tl ih =>
    intro acc i s hmem hnd hlt
    simp only [List.map_cons, List.nodup_cons] at hnd
    simp only [List.foldl_cons]
    rcases List.mem_cons.mp hmem with h1 | h1
    · have hic : ic.1 = i := by rw [← h1]
      have hpos : tsval (trainStep c1 c2 occ acc ic) (.num i)
          (sortPair (c1.getD i "") (c2.getD i "")) =
          tsval acc (.num i) (sortPair (c1.getD i "") (c2.getD i "")) + occ := by
        unfold trainStep
        rw [hic, if_neg (Nat.not_le.mpr hlt)]
        exact tsinc_val_self acc _ _ occ
      have hrest : ∀ (acc2 : TrainSet),
          tsval (tl.foldl (trainStep c1 c2 occ) acc2) (.num i)
            (sortPair (c1.getD i "") (c2.getD i "")) =
          tsval acc2 (.num i) (sortPair (c1.getD i "") (c2.getD i "")) := by
        intro acc2
        clear hpos hmem ih
        induction tl generalizing acc2 with
        | nil => rfl
        | cons jc tl2 ih2 =>
          simp only [List.map_cons, List.nodup_cons, List.mem_cons] at hnd
          push_neg at hnd
          simp only [List.foldl_cons]
          rw [ih2 ⟨by tauto, by tauto⟩]
          unfold trainStep
          split_ifs with h
          · rfl
          · refine tsinc_val_ne acc2 _ _ _ _ occ (Or.inl ?_)
            intro hc
            have hji : jc.1 = i := by injection hc
            exact hnd.1.1 (hic.trans hji.symm)
      rw [hrest, hpos]
    · have hne : ic.1 ≠ i := by
        intro hc
        have : i ∈ tl.map Prod.fst :=
          List.mem_map.mpr ⟨(i, s), h1, rfl⟩
        rw [← hc] at this
        exact hnd.1 this
      have hstep : tsval (trainStep c1 c2 occ acc ic) (.num i)
          (sortPair (c1.getD i "") (c2.getD i "")) =
          tsval acc (.num i) (sortPair (c1.getD i "") (c2.getD i "")) := by
        unfold trainStep
        split_ifs with h
        · rfl
        · refine tsinc_val_ne acc _ _ _ _ occ (Or.inl ?_)
          intro hc
          exact hne (by injection hc)
      rw [ih _ i s h1 hnd.2 hlt, hstep]

/-- C3 (amended): during iteration-driven retraining, Add-To-Training-Set
is applied once per detected unordered pair `(i, j)` with `i < j`, but the
added count is `k = self.f['wp'][(w1, w2)]` — the stored corpus frequency
of the word tuple in line order (0 when that exact tuple key is absent,
which the defaultdict read then inserts) — not 1 per detected rhyme. -/
theorem claim3_amended (vocab : Vocab) (f : FreqTab) (ts : TrainSet) (w1 w2 : String) :
    (tsval (add_to_train_set vocab f ts w1 w2).2 (.str "g")
        (sortPair (vocabGet vocab w1).2 (vocabGet vocab w2).2) =
      tsval ts (.str "g")
        (sortPair (vocabGet vocab w1).2 (vocabGet vocab w2).2) + fwpval f w1 w2) ∧
    (∀ i, i < min (vocabGet vocab w1).1.length (vocabGet vocab w2).1.length →
      tsval (add_to_train_set vocab f ts w1 w2).2 (.num i)
          (sortPair ((vocabGet vocab w1).1.getD i "") ((vocabGet vocab w2).1.getD i "")) =
        tsval ts (.num i)
          (sortPair ((vocabGet vocab w1).1.getD i "") ((vocabGet vocab w2).1.getD i "")) +
          fwpval f w1 w2) := by
  have hocc : (getdef ((getdef f (.str "wp") []).1) (.p (w1, w2)) 0).1 = fwpval f w1 w2 := by
    rw [getdef_fst, getdef_fst]
    rfl
  constructor
  · show tsval ((vocabGet vocab w1).1.enum.foldl
        (trainStep (vocabGet vocab w1).1 (vocabGet vocab w2).1
          (getdef ((getdef f (.str "wp") []).1) (.p (w1, w2)) 0).1)
        (tsinc ts (.str "g") (sortPair (vocabGet vocab w1).2 (vocabGet vocab w2).2)
          (getdef ((getdef f (.str "wp") []).1) (.p (w1, w2)) 0).1)) (.str "g") _ = _
    rw [trainFold_str, tsinc_val_self, hocc]
  · intro i hi
    show tsval ((vocabGet vocab w1).1.enum.foldl
        (trainStep (vocabGet vocab w1).1 (vocabGet vocab w2).1
          (getdef ((getdef f (.str "wp") []).1) (.p (w1, w2)) 0).1)
        (tsinc ts (.str "g") (sortPair (vocabGet vocab w1).2 (vocabGet vocab w2).2)
          (getdef ((getdef f (.str "wp") []).1) (.p (w1, w2)) 0).1)) (.num i) _ = _
    obtain ⟨a, ha⟩ := mem_enum_of_lt (vocabGet vocab w1).1 i
      (lt_of_lt_of_le hi (Nat.min_le_left _ _))
    rw [trainFold_pos _ _ _ _ _ i a ha
      (by rw [List.enum_map_fst]; exact List.nodup_range _)
      (lt_of_lt_of_le hi (Nat.min_le_right _ _))]
    rw [tsinc_val_ne _ _ _ _ _ _ (Or.inl (fun hc => PKey.noConfusion hc)), hocc]

/-- The unordered pairs walked by the update step of `_detect_rhymes`
(`for i in rhymes_detected: for j in rhymes_detected[i]: if i > j: continue`). -/
def updatePairs (r : Rhymes) : List (Nat × Nat) :=
  r.foldl (fun acc e =>
    acc ++ (e.2.filter (fun j => decide (¬ e.1 > j))).map (fun j => (e.1, j))) []

/-- Window-1 training configuration used by the concrete training runs. -/
def cfgWin1 : Config := ⟨1, 2, true, true, true, false, 0, 95/100, 95/100, 3⟩

/-- A four-line poem with line-final words a, b, a, b. -/
def corpusABAB : List Line :=
  [⟨some "a", 0, 0⟩, ⟨some "b", 0, 0⟩, ⟨some "a", 0, 0⟩, ⟨some "b", 0, 0⟩]

/-- Vocabulary giving both words the same single-component fingerprint,
so every scored pair counts as a rhyme. -/
def vocabAB : Vocab := [("a", (["x"], "a")), ("b", (["x"], "b"))]

/-- The word-pair frequencies of `corpusABAB` with window 1. -/
def fABAB : FreqTab := (overall_frequencies cfgWin1 corpusABAB vocabAB [] []).1

/-- The update-mode detection pass over `corpusABAB`. -/
def resABAB : DetectResult := detect_rhymes cfgWin1 corpusABAB vocabAB false true [] fABAB []

/-- C3 counterexample: on the a/b/a/b corpus with window 1 the detected
pair (0, 1) is fed to Add-To-Training-Set, which increments the n-gram
entry by the corpus pair frequency 3, not by 1; the full update walk of
the six detected pairs leaves count 9 (3+0+3+3 over the four mixed
pairs), where the claim would give 4. -/
theorem claim3_counterexample :
    linkedB resABAB.rhymes 0 1 = true ∧
    fwpval fABAB "a" "b" = 3 ∧
    tsval (add_to_train_set vocabAB fABAB [] "a" "b").2 (.str "g") ("a", "b") = 3 ∧
    updatePairs resABAB.rhymes = [(0, 1), (0, 2), (0, 3), (1, 2), (1, 3), (2, 3)] ∧
    tsval resABAB.ts (.str "g") ("a", "b") = 9 := by
  refine ⟨?_, ?_, ?_, ?_, ?_⟩ <;> with_unfolding_all rfl

/-- Witness for `claim3_amended` at a concrete pair. -/
theorem claim3_witness :
    tsval (add_to_train_set vocabAB fABAB [] "a" "b").2 (.num 0)
        (sortPair ((vocabGet vocabAB "a").1.getD 0 "") ((vocabGet vocabAB "b").1.getD 0 "")) =
      tsval [] (.num 0)
        (sortPair ((vocabGet vocabAB "a").1.getD 0 "") ((vocabGet vocabAB "b").1.getD 0 "")) +
        fwpval fABAB "a" "b" :=
  (claim3_amended vocabAB fABAB [] "a" "b").2 0 (by decide)

/-- Detection configuration with window 2 and `same_words = false`. -/
def cfgWin2SameOff : Config := ⟨2, 2, true, true, false, false, 0, 95/100, 95/100, 3⟩

/-- A three-line poem with line-final words a, b, a. -/
def corpusABA : List Line := [⟨some "a", 0, 0⟩, ⟨some "b", 0, 0⟩, ⟨some "a", 0, 0⟩]

/-- The output-mode detection pass over `corpusABA` with `same_words`
disabled. -/
def resABA : DetectResult := detect_rhymes cfgWin2SameOff corpusABA vocabAB false false [] [] []

/-- C4 counterexample: with `same_words = false`, lines 0 and 2 end with
the same word, yet after the detection pass they contain each other in
the rhymes map — the local transitive closure (0-1 and 1-2 both rhyme)
links them without re-checking the equal-word skip. -/
theorem claim4_counterexample :
    cfgWin2SameOff.same_words = false ∧
    ((corpusABA.get? 0).getD ⟨none, 0, 0⟩).word = ((corpusABA.get? 2).getD ⟨none, 0, 0⟩).word ∧
    linkedB resABA.rhymes 0 2 = true ∧
    linkedB resABA.rhymes 2 0 = true := by
  refine ⟨rfl, rfl, ?_, ?_⟩ <;> with_unfolding_all rfl

/-- Configuration for the four-line AABB scenario (`same_words = false`). -/
def cfgAABB : Config := ⟨5, 2, true, true, false, false, 0, 95/100, 95/100, 3⟩

/-- A four-line AABB poem whose first two lines end with the same word. -/
def corpusAABB : List Line :=
  [⟨some "a", 0, 0⟩, ⟨some "a", 0, 0⟩, ⟨some "b", 0, 0⟩, ⟨some "b", 0, 0⟩]

/-- Vocabulary with distinct fingerprints for the two words, so the a/b
cross score stays far below the threshold. -/
def vocabAABB : Vocab := [("a", (["x"], "a")), ("b", (["y"], "b"))]

/-- The output-mode detection pass over the AABB poem. -/
def resAABB : DetectResult := detect_rhymes cfgAABB corpusAABB vocabAABB false false [] [] []

/-- C4 (amended): with `same_words = false`, the *direct* window
detection never links two lines with equal rhyme words: for every
configuration, dataset, vocabulary, state and window pair, one direct
detection step on an equal-word pair is a no-op in both phases — the
skip fires before scoring.  Consequently, in the four-line AABB poem
whose first two lines share a word (and whose cross-word scores fall
below the threshold) `rhymes[0]` and `rhymes[1]` do not contain each
other.  Equal words can still end up linked through the transitive
closure, as the counterexample shows, so the claim's universal form
fails. -/
theorem claim4_amended :
    (∀ (cfg : Config) (data : List Line) (vocab : Vocab) (i : Nat) (l : Line)
      (st : Rhymes × Probs) (j : Nat) (dj : Line),
      cfg.same_words = false → data.get? j = some dj → l.word = dj.word →
      phase1Body cfg data vocab i l st j = st ∧
      phase2Body cfg data vocab i l st j = st) ∧
    (cfgAABB.same_words = false ∧
     ((corpusAABB.get? 0).getD ⟨none, 0, 0⟩).word =
       ((corpusAABB.get? 1).getD ⟨none, 0, 0⟩).word ∧
     linkedB resAABB.rhymes 0 1 = false ∧
     linkedB resAABB.rhymes 1 0 = false) := by
  constructor
  · intro cfg data vocab i l st j dj hsw hgj hw
    have hps : pairSkip cfg data l j = true := by
      simp only [pairSkip, hgj]
      simp [hsw, hw]
    constructor
    · unfold phase1Body
      rw [if_pos hps]
    · unfold phase2Body
      rw [if_pos (by simp [hps] :
        (pairSkip cfg data l j || (akeys st.1).contains j) = true)]
  · refine ⟨rfl, rfl, ?_, ?_⟩ <;> with_unfolding_all rfl

/-- Witness for `claim4_amended`: the direct step on the equal-word pair
of lines 0 and 1 of the AABB poem leaves the state untouched in both
phases. -/
theorem claim4_witness :
    phase1Body cfgAABB corpusAABB vocabAABB 0 ⟨some "a", 0, 0⟩
      (([], []) : Rhymes × Probs) 1 = (([], []) : Rhymes × Probs) ∧
    phase2Body cfgAABB corpusAABB vocabAABB 0 ⟨some "a", 0, 0⟩
      (([], []) : Rhymes × Probs) 1 = (([], []) : Rhymes × Probs) :=
  claim4_amended.1 cfgAABB corpusAABB vocabAABB 0 ⟨some "a", 0, 0⟩
    (([], []) : Rhymes × Probs) 1 ⟨some "a", 0, 0⟩ rfl (by decide) rfl

theorem mem_aset [DecidableEq α] (d : List (α × β)) (a : α) (b : β) (x : α) (s : β)
    (h : (x, s) ∈ aset d a b) : (x, s) ∈ d ∨ (x = a ∧ s = b) := by
  induction d with
  | nil =>
    simp [aset] at h
    exact Or.inr h
  | cons hd tl ih =>
    obtain ⟨k, v⟩ := hd
    by_cases hk : k = a
    · subst hk
      simp only [aset, if_pos rfl] at h
      rcases List.mem_cons.mp h with h1 | h1
      · have : x = k ∧ s = b := by
          constructor
          · exact (Prod.mk.injEq _ _ _ _ ▸ h1).1
          · exact (Prod.mk.injEq _ _ _ _ ▸ h1).2
        exact Or.inr this
      · exact Or.inl (List.mem_cons_of_mem _ h1)
    · simp only [aset, if_neg hk] at h
      rcases List.mem_cons.mp h with h1 | h1
      · exact Or.inl (List.mem_cons.mpr (Or.inl h1))
      · rcases ih h1 with h2 | h2
        · exact Or.inl (List.mem_cons_of_mem _ h2)
        · exact Or.inr h2

theorem mem_getdef [DecidableEq α] (d : List (α × β)) (a : α) (dflt : β) (x : α) (s : β)
    (h : (x, s) ∈ (getdef d a dflt).2) : (x, s) ∈ d ∨ (x = a ∧ s = dflt) := by
  unfold getdef at h
  cases hl : alookup d a with
  | some v =>
    rw [hl] at h
    exact Or.inl h
  | none =>
    rw [hl] at h
    rcases List.mem_append.mp h with h1 | h1
    · exact Or.inl h1
    · simp at h1
      exact Or.inr h1

/-- Pair `(i, j)` is present in the rhymes map (membership form, robust
against duplicate keys). -/
def memLinked (r : Rhymes) (i j : Nat) : Prop :=
  ∃ s, (i, s) ∈ r ∧ j ∈ s

theorem linked_imp_memLinked (r : Rhymes) (i j : Nat) (h : linked r i j) :
    memLinked r i j := by
  obtain ⟨s, hs, hj⟩ := h
  exact ⟨s, alookup_mem r i s hs, hj⟩

theorem getdef_fst_rhymes (r : Rhymes) (a : Nat) (k : Nat)
    (h : k ∈ (getdef r a ([] : List Nat)).1) : memLinked r a k := by
  rw [getdef_fst] at h
  cases hl : alookup r a with
  | some s =>
    rw [hl] at h
    exact ⟨s, alookup_mem r a s hl, h⟩
  | none =>
    rw [hl] at h
    exact absurd h (List.not_mem_nil k)

theorem memLinked_of_getD (r : Rhymes) (a k : Nat)
    (h : k ∈ (alookup r a).getD []) : memLinked r a k := by
  cases hl : alookup r a with
  | some s =>
    rw [hl] at h
    exact ⟨s, alookup_mem r a s hl, h⟩
  | none =>
    rw [hl] at h
    exact absurd h (List.not_mem_nil k)

theorem memLinked_addRhyme (r : Rhymes) (a b x y : Nat)
    (h : memLinked (addRhyme r a b) x y) : memLinked r x y ∨ (x = a ∧ y = b) := by
  obtain ⟨s, hs, hy⟩ := h
  unfold addRhyme at hs
  by_cases hmem : b ∈ (getdef r a ([] : List Nat)).1
  · rw [if_pos hmem] at hs
    rcases mem_getdef r a [] x s hs with h1 | h1
    · exact Or.inl ⟨s, h1, hy⟩
    · rw [h1.2] at hy
      exact absurd hy (List.not_mem_nil y)
  · rw [if_neg hmem] at hs
    rcases mem_aset (getdef r a ([] : List Nat)).2 a _ x s hs with h1 | h1
    · rcases mem_getdef r a [] x s h1 with h2 | h2
      · exact Or.inl ⟨s, h2, hy⟩
      · rw [h2.2] at hy
        exact absurd hy (List.not_mem_nil y)
    · obtain ⟨hxa, hsv⟩ := h1
      subst hxa
      rw [hsv] at hy
      rcases List.mem_append.mp hy with h2 | h2
      · exact Or.inl (getdef_fst_rhymes r x y h2)
      · simp at h2
        exact Or.inr ⟨rfl, h2⟩

theorem memLinked_closure (j : Nat) (ks : List Nat) :
    ∀ (acc : Rhymes) (x y : Nat),
      memLinked (ks.foldl (fun acc k =>
        if k ≠ j then addRhyme (addRhyme acc k j) j k else acc) acc) x y →
      memLinked acc x y ∨ ∃ k ∈ ks, (x = k ∧ y = j) ∨ (x = j ∧ y = k) := by
  induction ks with
  | nil => intro acc x y h; exact Or.inl h
  | cons k0 tl ih =>
    intro acc x y h
    simp only [List.foldl_cons] at h
    rcases ih _ x y h with h1 | h1
    · by_cases hk : k0 ≠ j
      · rw [if_pos hk] at h1
        rcases memLinked_addRhyme _ j k0 x y h1 with h2 | h2
        · rcases memLinked_addRhyme _ k0 j x y h2 with h3 | h3
          · exact Or.inl h3
          · exact Or.inr ⟨k0, List.mem_cons_self _ _, Or.inl h3⟩
        · exact Or.inr ⟨k0, List.mem_cons_self _ _, Or.inr h2⟩
      · rw [if_neg hk] at h1
        exact Or.inl h1
    · obtain ⟨k, hk, hcase⟩ := h1
      exact Or.inr ⟨k, List.mem_cons_of_mem _ hk, hcase⟩

/-- Line `i` of the dataset (wordless dummy outside the range). -/
def lineAt (data : List Line) (i : Nat) : Line := (data.get? i).getD ⟨none, 0, 0⟩

/-- Lines `i` and `j` belong to the same poem, and to the same stanza
when `stanza_limit` is set. -/
def sameGroup (cfg : Config) (data : List Line) (i j : Nat) : Prop :=
  (lineAt data i).poem = (lineAt data j).poem ∧
  (cfg.stanza_limit = true → (lineAt data i).stanza = (lineAt data j).stanza)

theorem sameGroup_refl (cfg : Config) (data : List Line) (i : Nat) :
    sameGroup cfg data i i := ⟨rfl, fun _ => rfl⟩

theorem sameGroup_symm (cfg : Config) (data : List Line) (i j : Nat)
    (h : sameGroup cfg data i j) : sameGroup cfg data j i :=
  ⟨h.1.symm, fun hs => (h.2 hs).symm⟩

theorem sameGroup_trans (cfg : Config) (data : List Line) (i j k : Nat)
    (h1 : sameGroup cfg data i j) (h2 : sameGroup cfg data j k) :
    sameGroup cfg data i k :=
  ⟨h1.1.trans h2.1, fun hs => (h1.2 hs).trans (h2.2 hs)⟩

/-- Every pair of the rhymes map respects poem (and stanza) boundaries. -/
def rhymesPure (cfg : Config) (data : List Line) (r : Rhymes) : Prop :=
  ∀ x y, memLinked r x y → sameGroup cfg data x y

theorem pairSkip_false_elim (cfg : Config) (data : List Line) (l : Line) (j : Nat)
    (h : pairSkip cfg data l j = false) :
    ∃ dj, data.get? j = some dj ∧ l.poem = dj.poem ∧
      (cfg.stanza_limit = true → l.stanza = dj.stanza) := by
  unfold pairSkip at h
  cases hg : data.get? j with
  | none => rw [hg] at h; exact absurd h (by simp)
  | some dj =>
    rw [hg] at h
    refine ⟨dj, rfl, ?_, ?_⟩
    · have := (Bool.or_eq_false_iff.mp ((Bool.or_eq_false_iff.mp h).1)).1
      simpa using this
    · intro hs
      have := (Bool.or_eq_false_iff.mp ((Bool.or_eq_false_iff.mp h).1)).2
      rw [hs] at this
      simpa using this

theorem phase1Body_pure (cfg : Config) (data : List Line) (vocab : Vocab)
    (i : Nat) (l : Line) (hl : data.get? i = some l) :
    ∀ (st : Rhymes × Probs) (j : Nat), rhymesPure cfg data st.1 →
      rhymesPure cfg data (phase1Body cfg data vocab i l st j).1 := by
  intro st j hpure
  unfold phase1Body
  by_cases hskip : pairSkip cfg data l j
  · rw [if_pos hskip]; exact hpure
  · rw [if_neg hskip]
    obtain ⟨dj, hgj, hpoem, hstanza⟩ := pairSkip_false_elim cfg data l j
      (Bool.not_eq_true _ ▸ (by simpa using hskip))
    have hgroup : sameGroup cfg data i j := by
      refine ⟨?_, ?_⟩
      · show (lineAt data i).poem = (lineAt data j).poem
        unfold lineAt
        rw [hl, hgj]
        exact hpoem
      · intro hs
        show (lineAt data i).stanza = (lineAt data j).stanza
        unfold lineAt
        rw [hl, hgj]
        exact hstanza hs
    by_cases hwf : wordFalsy ((data.get? j).getD ⟨none, 0, 0⟩).word
    · rw [if_pos hwf]; exact hpure
    · rw [if_neg hwf]
      by_cases hsc : (rhyme_score vocab st.2 (l.word.getD "")
          ((((data.get? j).getD ⟨none, 0, 0⟩)).word.getD "")).1 > cfg.prob_ipa_min
      · rw [if_pos hsc]
        intro x y hxy
        have hp1 : rhymesPure cfg data (addRhyme (addRhyme st.1 i j) j i) := by
          intro x' y' h'
          rcases memLinked_addRhyme _ j i x' y' h' with h1 | h1
          · rcases memLinked_addRhyme _ i j x' y' h1 with h2 | h2
            · exact hpure x' y' h2
            · rw [h2.1, h2.2]; exact hgroup
          · rw [h1.1, h1.2]; exact sameGroup_symm cfg data i j hgroup
        rcases memLinked_closure j _ _ x y hxy with h1 | h1
        · exact hp1 x y h1
        · obtain ⟨k, hk, hcase⟩ := h1
          have hik : sameGroup cfg data i k :=
            hp1 i k (memLinked_of_getD _ i k hk)
          rcases hcase with ⟨hx, hy⟩ | ⟨hx, hy⟩
          · rw [hx, hy]
            exact sameGroup_trans cfg data k i j (sameGroup_symm cfg data i k hik) hgroup
          · rw [hx, hy]
            exact sameGroup_symm cfg data k j
              (sameGroup_trans cfg data k i j (sameGroup_symm cfg data i k hik) hgroup)
      · rw [if_neg hsc]
        exact hpure

theorem phase2Body_pure (cfg : Config) (data : List Line) (vocab : Vocab)
    (i : Nat) (l : Line) (hl : data.get? i = some l) :
    ∀ (st : Rhymes × Probs) (j : Nat), rhymesPure cfg data st.1 →
      rhymesPure cfg data (phase2Body cfg data vocab i l st j).1 := by
  intro st j hpure
  unfold phase2Body
  by_cases hskip : (pairSkip cfg data l j || (akeys st.1).contains j : Bool)
  · rw [if_pos hskip]; exact hpure
  · rw [if_neg hskip]
    have hskip0 : (pairSkip cfg data l j || (akeys st.1).contains j) = false :=
      Bool.not_eq_true _ ▸ Bool.of_not_eq_true hskip
    have hskip1 : pairSkip cfg data l j = false :=
      (Bool.or_eq_false_iff.mp hskip0).1
    obtain ⟨dj, hgj, hpoem, hstanza⟩ := pairSkip_false_elim cfg data l j hskip1
    have hgroup : sameGroup cfg data i j := by
      refine ⟨?_, ?_⟩
      · show (lineAt data i).poem = (lineAt data j).poem
        unfold lineAt; rw [hl, hgj]; exact hpoem
      · intro hs
        show (lineAt data i).stanza = (lineAt data j).stanza
        unfold lineAt; rw [hl, hgj]; exact hstanza hs
    by_cases hwf : wordFalsy ((data.get? j).getD ⟨none, 0, 0⟩).word
    · rw [if_pos hwf]; exact hpure
    · rw [if_neg hwf]
      by_cases hsc : (ngram_score vocab st.2 (l.word.getD "")
          ((((data.get? j).getD ⟨none, 0, 0⟩)).word.getD "")).1 > cfg.prob_ngram_min
      · rw [if_pos hsc]
        intro x y hxy
        rcases memLinked_addRhyme _ j i x y hxy with h1 | h1
        · rcases memLinked_addRhyme _ i j x y h1 with h2 | h2
          · exact hpure x y h2
          · rw [h2.1, h2.2]; exact hgroup
        · rw [h1.1, h1.2]; exact sameGroup_symm cfg data i j hgroup
      · rw [if_neg hsc]
        exact hpure

theorem detectLine_pure (cfg : Config) (data : List Line) (vocab : Vocab)
    (useNgram : Bool) :
    ∀ (st : Rhymes × Probs) (i : Nat), rhymesPure cfg data st.1 →
      rhymesPure cfg data (detectLine cfg data vocab useNgram st i).1 := by
  intro st i hpure
  have hphase1 : ∀ (js : List Nat) (st0 : Rhymes × Probs) (l : Line),
      data.get? i = some l → rhymesPure cfg data st0.1 →
      rhymesPure cfg data ((js.foldl (phase1Body cfg data vocab i l) st0)).1 := by
    intro js
    induction js with
    | nil => intro st0 l _ h0; exact h0
    | cons j0 tl ih =>
      intro st0 l hg h0
      simp only [List.foldl_cons]
      exact ih _ l hg (phase1Body_pure cfg data vocab i l hg st0 j0 h0)
  have hphase2 : ∀ (js : List Nat) (st0 : Rhymes × Probs) (l : Line),
      data.get? i = some l → rhymesPure cfg data st0.1 →
      rhymesPure cfg data ((js.foldl (phase2Body cfg data vocab i l) st0)).1 := by
    intro js
    induction js with
    | nil => intro st0 l _ h0; exact h0
    | cons j0 tl ih =>
      intro st0 l hg h0
      simp only [List.foldl_cons]
      exact ih _ l hg (phase2Body_pure cfg data vocab i l hg st0 j0 h0)
  cases hg : data.get? i with
  | none =>
    simp only [detectLine, hg]
    exact hpure
  | some l =>
    simp only [detectLine, hg]
    by_cases hwf : wordFalsy l.word
    · rw [if_pos hwf]; exact hpure
    · rw [if_neg hwf]
      have hst1 := hphase1 (List.range' (i + 1) cfg.window) st l hg hpure
      cases useNgram with
      | false =>
        rw [if_pos (by simp : ((!false : Bool) = true))]
        exact hst1
      | true =>
        rw [if_neg (by simp : ¬((!true : Bool) = true))]
        by_cases hin : (((akeys ((List.range' (i + 1) cfg.window).foldl
            (phase1Body cfg data vocab i l) st).1).contains i : Bool) = true)
        · rw [if_pos hin]; exact hst1
        · rw [if_neg hin]
          exact hphase2 _ _ l hg hst1

theorem detectSweep_pure (cfg : Config) (data : List Line) (vocab : Vocab)
    (useNgram : Bool) :
    ∀ (is : List Nat) (st : Rhymes × Probs), rhymesPure cfg data st.1 →
      rhymesPure cfg data ((is.foldl (detectLine cfg data vocab useNgram) st)).1 := by
  intro is
  induction is with
  | nil => intro st h; exact h
  | cons i0 tl ih =>
    intro st h
    simp only [List.foldl_cons]
    exact ih _ (detectLine_pure cfg data vocab useNgram st i0 h)

theorem detect_rhymes_pure (cfg : Config) (data : List Line) (vocab : Vocab)
    (useNgram update : Bool) (probs : Probs) (f : FreqTab) (ts : TrainSet) :
    rhymesPure cfg data (detect_rhymes cfg data vocab useNgram update probs f ts).rhymes := by
  have hsweep := detectSweep_pure cfg data vocab useNgram (List.range data.length)
    ([], probs) (fun x y h => absurd h (by rintro ⟨s, hs, _⟩; exact absurd hs (List.not_mem_nil _)))
  simp only [detect_rhymes]
  split_ifs with h
  · exact hsweep
  · exact hsweep

/-- Keys of the `self.f['wp']` table. -/
def wpKeys (f : FreqTab) : List TKey := akeys ((alookup f (.str "wp")).getD [])

/-- The words of lines `i` and `j` co-occurred as line-final words within
the window during the frequency sweep: `j` at most `window` lines after
`i`, same poem, same stanza when `stanza_limit`, both lines worded. -/
def winPair (cfg : Config) (data : List Line) (z : TKey) : Prop :=
  ∃ i j, i < data.length ∧ j < data.length ∧ i < j ∧ j ≤ i + cfg.window ∧
    (lineAt data i).poem = (lineAt data j).poem ∧
    (cfg.stanza_limit = true → (lineAt data i).stanza = (lineAt data j).stanza) ∧
    wordFalsy (lineAt data i).word = false ∧ wordFalsy (lineAt data j).word = false ∧
    z = .p (sortPair ((lineAt data i).word.getD "") ((lineAt data j).word.getD ""))

theorem finc_wp_other (f : FreqTab) (x : PKey) (y : TKey) (k : Nat)
    (hx : x ≠ .str "wp") :
    alookup (finc f x y k) (.str "wp") = alookup f (.str "wp") := by
  unfold finc
  rw [alookup_aset_ne _ _ _ _ hx]
  exact getdef_snd_lookup_ne f x _ [] hx

theorem wpKeys_finc_wp (f : FreqTab) (y : TKey) (k : Nat) (z : TKey)
    (h : z ∈ wpKeys (finc f (.str "wp") y k)) : z ∈ wpKeys f ∨ z = y := by
  unfold finc wpKeys at h
  rw [alookup_aset_self, Option.getD_some] at h
  rcases (mem_akeys_aset _ _ _ _).mp h with h1 | h1
  · rcases (mem_akeys_getdef _ _ _ _).mp h1 with h2 | h2
    · left
      rw [getdef_fst] at h2
      exact h2
    · right; exact h2
  · right; exact h1

theorem countPair_wp (cfg : Config) (data : List Line) (l : Line) (i : Nat)
    (hl : data.get? i = some l) (hwf : wordFalsy l.word = false) :
    ∀ (st : FreqTab × NTab) (j : Nat), i < j → j ≤ i + cfg.window →
      ∀ z ∈ wpKeys (countPair cfg data l st j).1,
        z ∈ wpKeys st.1 ∨ winPair cfg data z := by
  intro st j hij hwin z hz
  cases hgj : data.get? j with
  | none =>
    simp only [countPair, hgj] at hz
    exact Or.inl hz
  | some dj =>
    simp only [countPair, hgj] at hz
    by_cases hskip : l.poem ≠ dj.poem ∨ (cfg.stanza_limit = true ∧ l.stanza ≠ dj.stanza)
    · rw [if_pos hskip] at hz
      exact Or.inl hz
    · rw [if_neg hskip] at hz
      push_neg at hskip
      by_cases hwfj : wordFalsy dj.word
      · rw [if_pos hwfj] at hz
        exact Or.inl hz
      · rw [if_neg hwfj] at hz
        rcases wpKeys_finc_wp st.1 _ 1 z hz with h1 | h1
        · exact Or.inl h1
        · right
          have hilen : i < data.length := by
            rcases List.get?_eq_some.mp hl with ⟨hlt, _⟩
            exact hlt
          have hjlen : j < data.length := by
            rcases List.get?_eq_some.mp hgj with ⟨hlt, _⟩
            exact hlt
          have hli : lineAt data i = l := by unfold lineAt; rw [hl]; rfl
          have hlj : lineAt data j = dj := by unfold lineAt; rw [hgj]; rfl
          refine ⟨i, j, hilen, hjlen, hij, hwin, ?_, ?_, ?_, ?_, ?_⟩
          · rw [hli, hlj]; exact hskip.1
          · intro hs; rw [hli, hlj]; exact hskip.2 hs
          · rw [hli]; exact hwf
          · rw [hlj]; exact Bool.eq_false_iff.mpr hwfj
          · rw [hli, hlj]; exact h1

theorem compFold_wp :
    ∀ (l : List (Nat × String)) (acc : FreqTab × NTab),
      alookup ((l.foldl (fun acc jc =>
        (finc acc.1 (.num jc.1) (.s jc.2) 1, ninc acc.2 (.num jc.1) 1)) acc)).1
        (.str "wp") = alookup acc.1 (.str "wp") := by
  intro l
  induction l with
  | nil => intro acc; rfl
  | cons jc tl ih =>
    intro acc
    simp only [List.foldl_cons]
    rw [ih]
    exact finc_wp_other acc.1 _ _ 1 (fun hc => PKey.noConfusion hc)

theorem countLine_wp (cfg : Config) (data : List Line) (vocab : Vocab) :
    ∀ (st : FreqTab × NTab) (i : Nat),
      (∀ z ∈ wpKeys st.1, winPair cfg data z) →
      ∀ z ∈ wpKeys (countLine cfg data vocab st i).1, winPair cfg data z := by
  intro st i hst z hz
  cases hg : data.get? i with
  | none =>
    simp only [countLine, hg] at hz
    exact hst z hz
  | some l =>
    simp only [countLine, hg] at hz
    by_cases hwf : wordFalsy l.word
    · rw [if_pos hwf] at hz
      exact hst z hz
    · rw [if_neg hwf] at hz
      have hfold : ∀ (js : List Nat) (st0 : FreqTab × NTab),
          (∀ j ∈ js, i < j ∧ j ≤ i + cfg.window) →
          (∀ z' ∈ wpKeys st0.1, winPair cfg data z') →
          ∀ z' ∈ wpKeys ((js.foldl (countPair cfg data l) st0)).1,
            winPair cfg data z' := by
        intro js
        induction js with
        | nil => intro st0 _ h0 z' hz'; exact h0 z' hz'
        | cons j0 tl ih =>
          intro st0 hjs h0 z' hz'
          simp only [List.foldl_cons] at hz'
          refine ih _ (fun j hj => hjs j (List.mem_cons_of_mem _ hj)) ?_ z' hz'
          intro z2 hz2
          rcases countPair_wp cfg data l i hg (Bool.eq_false_iff.mpr hwf) st0 j0
            (hjs j0 (List.mem_cons_self _ _)).1 (hjs j0 (List.mem_cons_self _ _)).2
            z2 hz2 with h1 | h1
          · exact h0 z2 h1
          · exact h1
      refine hfold (List.range' (i + 1) cfg.window) _ ?_ ?_ z hz
      · intro j hj
        rw [List.mem_range'_1] at hj
        omega
      · intro z' hz'
        refine hst z' ?_
        have heq : alookup ((vocabGet vocab (l.word.getD "")).1.enum.foldl (fun acc jc =>
            (finc acc.1 (.num jc.1) (.s jc.2) 1, ninc acc.2 (.num jc.1) 1))
            (finc (finc st.1 (.str "w") (.s (l.word.getD "")) 1) (.str "g")
              (.s ((vocabGet vocab (l.word.getD "")).2)) 1,
             ninc st.2 (.str "g") 1)).1 (.str "wp") = alookup st.1 (.str "wp") := by
          rw [compFold_wp]
          rw [finc_wp_other _ _ _ 1 (by decide)]
          rw [finc_wp_other _ _ _ 1 (by decide)]
        unfold wpKeys at hz' ⊢
        rw [heq] at hz'
        exact hz'

theorem overall_frequencies_wp (cfg : Config) (data : List Line) (vocab : Vocab)
    (f0 : FreqTab) (n0 : NTab)
    (h0 : ∀ z ∈ wpKeys f0, winPair cfg data z) :
    ∀ z ∈ wpKeys (overall_frequencies cfg data vocab f0 n0).1, winPair cfg data z := by
  unfold overall_frequencies
  have hfold : ∀ (is : List Nat) (st : FreqTab × NTab),
      (∀ z ∈ wpKeys st.1, winPair cfg data z) →
      ∀ z ∈ wpKeys ((is.foldl (countLine cfg data vocab) st)).1, winPair cfg data z := by
    intro is
    induction is with
    | nil => intro st h z hz; exact h z hz
    | cons i0 tl ih =>
      intro st h z hz
      simp only [List.foldl_cons] at hz
      exact ih _ (fun z' hz' => countLine_wp cfg data vocab st i0 h z' hz') z hz
  exact hfold _ _ h0

/-- Value stored in `self.f['wp']` under key `z`. -/
def wpVal (f : FreqTab) (z : TKey) : Option Nat :=
  alookup ((alookup f (.str "wp")).getD []) z

/-- Keys of one keyspace of the training set. -/
def tsKeys (ts : TrainSet) (x : PKey) : List (String × String) :=
  akeys ((alookup ts x).getD [])

/-- The word tuple (in line order) of some pair of the rhymes map with
`i ≤ j` — exactly the tuples the update walk hands to
`_add_to_train_set`. -/
def updWords (data : List Line) (r : Rhymes) (z : TKey) : Prop :=
  ∃ i j, memLinked r i j ∧ i ≤ j ∧
    z = .p ((lineAt data i).word.getD "", (lineAt data j).word.getD "")

theorem add_wp_keys (vocab : Vocab) (f : FreqTab) (ts : TrainSet) (w1 w2 : String)
    (z : TKey) (h : z ∈ wpKeys (add_to_train_set vocab f ts w1 w2).1) :
    z ∈ wpKeys f ∨ z = .p (w1, w2) := by
  unfold add_to_train_set wpKeys at h
  rw [alookup_aset_self, Option.getD_some] at h
  rcases (mem_akeys_getdef _ _ _ _).mp h with h1 | h1
  · left
    rw [getdef_fst] at h1
    exact h1
  · right; exact h1

theorem add_wp_lookup (vocab : Vocab) (f : FreqTab) (ts : TrainSet) (w1 w2 : String) :
    (alookup (add_to_train_set vocab f ts w1 w2).1 (.str "wp")).getD [] =
      (getdef ((alookup f (.str "wp")).getD []) (.p (w1, w2)) 0).2 := by
  unfold add_to_train_set
  rw [alookup_aset_self, Option.getD_some]
  rw [getdef_fst]

theorem add_wp_val_preserve (vocab : Vocab) (f : FreqTab) (ts : TrainSet)
    (w1 w2 : String) (z : TKey) (h : wpVal f z ≠ none) :
    wpVal (add_to_train_set vocab f ts w1 w2).1 z = wpVal f z := by
  unfold wpVal at *
  rw [add_wp_lookup]
  exact getdef_preserves_lookup _ _ 0 z h

theorem add_wp_val_new (vocab : Vocab) (f : FreqTab) (ts : TrainSet)
    (w1 w2 : String) (z : TKey)
    (hmem : z ∈ wpKeys (add_to_train_set vocab f ts w1 w2).1)
    (hnone : wpVal f z = none) :
    wpVal (add_to_train_set vocab f ts w1 w2).1 z = some 0 := by
  unfold wpVal at *
  rw [add_wp_lookup]
  have hz : z = .p (w1, w2) := by
    rcases add_wp_keys vocab f ts w1 w2 z hmem with h1 | h1
    · rw [alookup_eq_none_iff] at hnone
      exact absurd h1 hnone
    · exact h1
  subst hz
  rw [getdef_snd_lookup, getdef_fst, hnone]
  rfl

theorem add_wp_val_cases (vocab : Vocab) (f : FreqTab) (ts : TrainSet)
    (w1 w2 : String) (z : TKey) :
    wpVal (add_to_train_set vocab f ts w1 w2).1 z = wpVal f z ∨
    (wpVal f z = none ∧ wpVal (add_to_train_set vocab f ts w1 w2).1 z = some 0) := by
  unfold wpVal
  rw [add_wp_lookup]
  by_cases hz : alookup ((alookup f (.str "wp")).getD []) z = none
  · by_cases hk : z = .p (w1, w2)
    · subst hk
      right
      refine ⟨hz, ?_⟩
      rw [getdef_snd_lookup, getdef_fst, hz]
      rfl
    · left
      rw [getdef_snd_lookup_ne _ _ _ 0 (fun hc => hk hc.symm)]
  · left
    exact getdef_preserves_lookup _ _ 0 z hz

/-- The update-walk fold body for one rhymes-map entry `e`. -/
def updStep (vocab : Vocab) (data : List Line) (e : Nat × List Nat)
    (acc2 : FreqTab × TrainSet) (j : Nat) : FreqTab × TrainSet :=
  if e.1 > j then acc2
  else add_to_train_set vocab acc2.1 acc2.2
    ((((data.get? e.1).getD ⟨none, 0, 0⟩).word).getD "")
    ((((data.get? j).getD ⟨none, 0, 0⟩).word).getD "")

theorem updStep_eq (vocab : Vocab) (data : List Line) (e : Nat × List Nat) :
    ∀ (js : List Nat) (acc : FreqTab × TrainSet),
      js.foldl (fun acc2 j =>
        if e.1 > j then acc2
        else add_to_train_set vocab acc2.1 acc2.2
          ((((data.get? e.1).getD ⟨none, 0, 0⟩).word).getD "")
          ((((data.get? j).getD ⟨none, 0, 0⟩).word).getD "")) acc =
      js.foldl (updStep vocab data e) acc := by
  intro js acc
  rfl

theorem updInner_keys (vocab : Vocab) (data : List Line) (r : Rhymes)
    (e : Nat × List Nat) (he : e ∈ r) :
    ∀ (js : List Nat), (∀ j ∈ js, j ∈ e.2) →
      ∀ (acc : FreqTab × TrainSet) (z : TKey),
        z ∈ wpKeys ((js.foldl (updStep vocab data e) acc)).1 →
        z ∈ wpKeys acc.1 ∨ updWords data r z := by
  intro js
  induction js with
  | nil => intro _ acc z hz; exact Or.inl hz
  | cons j0 tl ih =>
    intro hjs acc z hz
    simp only [List.foldl_cons] at hz
    rcases ih (fun j hj => hjs j (List.mem_cons_of_mem _ hj)) _ z hz with h1 | h1
    · unfold updStep at h1
      by_cases hgt : e.1 > j0
      · rw [if_pos hgt] at h1
        exact Or.inl h1
      · rw [if_neg hgt] at h1
        rcases add_wp_keys vocab acc.1 acc.2 _ _ z h1 with h2 | h2
        · exact Or.inl h2
        · refine Or.inr ⟨e.1, j0, ⟨e.2, ?_, hjs j0 (List.mem_cons_self _ _)⟩, by omega, h2⟩
          rcases e with ⟨i0, s0⟩
          exact he
    · exact Or.inr h1

theorem updInner_vals (vocab : Vocab) (data : List Line) (e : Nat × List Nat) :
    ∀ (js : List Nat) (acc : FreqTab × TrainSet) (z : TKey),
      wpVal ((js.foldl (updStep vocab data e) acc)).1 z = wpVal acc.1 z ∨
      (wpVal acc.1 z = none ∧
        wpVal ((js.foldl (updStep vocab data e) acc)).1 z = some 0) := by
  intro js
  induction js with
  | nil => intro acc z; exact Or.inl rfl
  | cons j0 tl ih =>
    intro acc z
    simp only [List.foldl_cons]
    have hstep : wpVal (updStep vocab data e acc j0).1 z = wpVal acc.1 z ∨
        (wpVal acc.1 z = none ∧ wpVal (updStep vocab data e acc j0).1 z = some 0) := by
      unfold updStep
      by_cases hgt : e.1 > j0
      · rw [if_pos hgt]
        exact Or.inl rfl
      · rw [if_neg hgt]
        exact add_wp_val_cases vocab acc.1 acc.2 _ _ z
    rcases ih (updStep vocab data e acc j0) z with h1 | h1
    · rcases hstep with h2 | h2
      · rw [h1, h2]
        exact Or.inl rfl
      · rw [h1]
        exact Or.inr h2
    · rcases hstep with h2 | h2
      · rw [h2] at h1
        exact Or.inr h1
      · exact Or.inr ⟨h2.1, h1.2⟩

theorem updOuter_keys (vocab : Vocab) (data : List Line) (r : Rhymes) :
    ∀ (rs : List (Nat × List Nat)), (∀ e ∈ rs, e ∈ r) →
      ∀ (acc : FreqTab × TrainSet) (z : TKey),
        z ∈ wpKeys ((rs.foldl (fun acc e => e.2.foldl (updStep vocab data e) acc) acc)).1 →
        z ∈ wpKeys acc.1 ∨ updWords data r z := by
  intro rs
  induction rs with
  | nil => intro _ acc z hz; exact Or.inl hz
  | cons e0 tl ih =>
    intro hrs acc z hz
    simp only [List.foldl_cons] at hz
    rcases ih (fun e he => hrs e (List.mem_cons_of_mem _ he)) _ z hz with h1 | h1
    · exact updInner_keys vocab data r e0 (hrs e0 (List.mem_cons_self _ _)) e0.2
        (fun _ hj => hj) acc z h1
    · exact Or.inr h1

theorem updOuter_vals (vocab : Vocab) (data : List Line) :
    ∀ (rs : List (Nat × List Nat)) (acc : FreqTab × TrainSet) (z : TKey),
      wpVal ((rs.foldl (fun acc e => e.2.foldl (updStep vocab data e) acc) acc)).1 z =
        wpVal acc.1 z ∨
      (wpVal acc.1 z = none ∧
        wpVal ((rs.foldl (fun acc e => e.2.foldl (updStep vocab data e) acc) acc)).1 z =
          some 0) := by
  intro rs
  induction rs with
  | nil => intro acc z; exact Or.inl rfl
  | cons e0 tl ih =>
    intro acc z
    simp only [List.foldl_cons]
    have hstep := updInner_vals vocab data e0 e0.2 acc z
    rcases ih (e0.2.foldl (updStep vocab data e0) acc) z with h1 | h1
    · rcases hstep with h2 | h2
      · rw [h1, h2]
        exact Or.inl rfl
      · rw [h1]
        exact Or.inr h2
    · rcases hstep with h2 | h2
      · rw [h2] at h1
        exact Or.inr h1
      · exact Or.inr ⟨h2.1, h1.2⟩

theorem updateTrainSet_unfold (vocab : Vocab) (data : List Line) (r : Rhymes)
    (f : FreqTab) (ts : TrainSet) :
    updateTrainSet vocab data r f ts =
      r.foldl (fun acc e => e.2.foldl (updStep vocab data e) acc) (f, ts) := by
  rfl

theorem updateTrainSet_wp (vocab : Vocab) (data : List Line) (r : Rhymes)
    (f : FreqTab) (ts : TrainSet) :
    ∀ z ∈ wpKeys (updateTrainSet vocab data r f ts).1,
      z ∈ wpKeys f ∨
      (updWords data r z ∧ wpVal (updateTrainSet vocab data r f ts).1 z = some 0) := by
  intro z hz
  rw [updateTrainSet_unfold] at hz ⊢
  rcases updOuter_keys vocab data r r (fun _ he => he) (f, ts) z hz with h1 | h1
  · exact Or.inl h1
  · by_cases hf : z ∈ wpKeys f
    · exact Or.inl hf
    · refine Or.inr ⟨h1, ?_⟩
      rcases updOuter_vals vocab data r (f, ts) z with h2 | h2
      · have hfz : wpVal f z = none := by
          unfold wpVal
          rw [alookup_eq_none_iff]
          exact hf
        rw [hfz] at h2
        unfold wpKeys at hz
        unfold wpVal at h2
        have hne : alookup ((alookup ((r.foldl (fun acc e =>
            e.2.foldl (updStep vocab data e) acc) (f, ts))).1 (.str "wp")).getD []) z ≠ none :=
          fun hc => (alookup_eq_none_iff _ z).mp hc hz
        exact absurd h2 hne
      · exact h2.2

theorem tsinc_keys (ts : TrainSet) (x : PKey) (p : String × String) (k : Nat)
    (x' : PKey) (q : String × String) (h : q ∈ tsKeys (tsinc ts x p k) x') :
    q ∈ tsKeys ts x' ∨ (x' = x ∧ q = p) := by
  unfold tsinc tsKeys at h
  by_cases hx : x = x'
  · subst hx
    rw [alookup_aset_self, Option.getD_some] at h
    rcases (mem_akeys_aset _ _ _ _).mp h with h1 | h1
    · rcases (mem_akeys_getdef _ _ _ _).mp h1 with h2 | h2
      · left
        rw [getdef_fst] at h2
        exact h2
      · exact Or.inr ⟨rfl, h2⟩
    · exact Or.inr ⟨rfl, h1⟩
  · rw [alookup_aset_ne _ _ _ _ hx] at h
    rw [getdef_snd_lookup_ne _ _ _ _ hx] at h
    exact Or.inl h

theorem trainStepFold_keys (c1 c2 : List String) (occ : Nat) :
    ∀ (l : List (Nat × String)) (acc : TrainSet) (x : PKey) (q : String × String),
      q ∈ tsKeys ((l.foldl (trainStep c1 c2 occ) acc)) x →
      q ∈ tsKeys acc x ∨
      ∃ m, x = .num m ∧ q = sortPair (c1.getD m "") (c2.getD m "") := by
  intro l
  induction l with
  | nil => intro acc x q h; exact Or.inl h
  | cons ic tl ih =>
    intro acc x q h
    simp only [List.foldl_cons] at h
    rcases ih _ x q h with h1 | h1
    · unfold trainStep at h1
      by_cases hge : ic.1 ≥ c2.length
      · rw [if_pos hge] at h1
        exact Or.inl h1
      · rw [if_neg hge] at h1
        rcases tsinc_keys acc _ _ occ x q h1 with h2 | h2
        · exact Or.inl h2
        · exact Or.inr ⟨ic.1, h2.1, h2.2⟩
    · exact Or.inr h1

theorem add_ts_keys (vocab : Vocab) (f : FreqTab) (ts : TrainSet) (w1 w2 : String)
    (x : PKey) (q : String × String)
    (h : q ∈ tsKeys (add_to_train_set vocab f ts w1 w2).2 x) :
    q ∈ tsKeys ts x ∨
    (x = .str "g" ∧ q = sortPair (vocabGet vocab w1).2 (vocabGet vocab w2).2) ∨
    (∃ m, x = .num m ∧
      q = sortPair ((vocabGet vocab w1).1.getD m "") ((vocabGet vocab w2).1.getD m "")) := by
  unfold add_to_train_set at h
  rcases trainStepFold_keys _ _ _ _ _ x q h with h1 | h1
  · rcases tsinc_keys ts _ _ _ x q h1 with h2 | h2
    · exact Or.inl h2
    · exact Or.inr (Or.inl h2)
  · exact Or.inr (Or.inr h1)

/-- A training-set key produced by the update walk: the n-gram pair or a
positionwise component pair of the vocabulary fingerprints of the words
of some rhymes-map pair with `i ≤ j`. -/
def updPairKey (data : List Line) (vocab : Vocab) (r : Rhymes)
    (x : PKey) (q : String × String) : Prop :=
  ∃ i j, memLinked r i j ∧ i ≤ j ∧
    ((x = .str "g" ∧
      q = sortPair (vocabGet vocab ((lineAt data i).word.getD "")).2
        (vocabGet vocab ((lineAt data j).word.getD "")).2) ∨
     (∃ m, x = .num m ∧
      q = sortPair ((vocabGet vocab ((lineAt data i).word.getD "")).1.getD m "")
        ((vocabGet vocab ((lineAt data j).word.getD "")).1.getD m "")))

theorem updInner_ts (vocab : Vocab) (data : List Line) (r : Rhymes)
    (e : Nat × List Nat) (he : e ∈ r) :
    ∀ (js : List Nat), (∀ j ∈ js, j ∈ e.2) →
      ∀ (acc : FreqTab × TrainSet) (x : PKey) (q : String × String),
        q ∈ tsKeys ((js.foldl (updStep vocab data e) acc)).2 x →
        q ∈ tsKeys acc.2 x ∨ updPairKey data vocab r x q := by
  intro js
  induction js with
  | nil => intro _ acc x q h; exact Or.inl h
  | cons j0 tl ih =>
    intro hjs acc x q h
    simp only [List.foldl_cons] at h
    rcases ih (fun j hj => hjs j (List.mem_cons_of_mem _ hj)) _ x q h with h1 | h1
    · unfold updStep at h1
      by_cases hgt : e.1 > j0
      · rw [if_pos hgt] at h1
        exact Or.inl h1
      · rw [if_neg hgt] at h1
        rcases add_ts_keys vocab acc.1 acc.2 _ _ x q h1 with h2 | h2 | h2
        · exact Or.inl h2
        · refine Or.inr ⟨e.1, j0, ⟨e.2, ?_, hjs j0 (List.mem_cons_self _ _)⟩,
            by omega, Or.inl h2⟩
          rcases e with ⟨i0, s0⟩
          exact he
        · refine Or.inr ⟨e.1, j0, ⟨e.2, ?_, hjs j0 (List.mem_cons_self _ _)⟩,
            by omega, Or.inr h2⟩
          rcases e with ⟨i0, s0⟩
          exact he
    · exact Or.inr h1

theorem updateTrainSet_ts (vocab : Vocab) (data : List Line) (r : Rhymes)
    (f : FreqTab) (ts : TrainSet) :
    ∀ (x : PKey) (q : String × String),
      q ∈ tsKeys (updateTrainSet vocab data r f ts).2 x →
      q ∈ tsKeys ts x ∨ updPairKey data vocab r x q := by
  have houter : ∀ (rs : List (Nat × List Nat)), (∀ e ∈ rs, e ∈ r) →
      ∀ (acc : FreqTab × TrainSet) (x : PKey) (q : String × String),
        q ∈ tsKeys ((rs.foldl (fun acc e => e.2.foldl (updStep vocab data e) acc) acc)).2 x →
        q ∈ tsKeys acc.2 x ∨ updPairKey data vocab r x q := by
    intro rs
    induction rs with
    | nil => intro _ acc x q h; exact Or.inl h
    | cons e0 tl ih =>
      intro hrs acc x q h
      simp only [List.foldl_cons] at h
      rcases ih (fun e he => hrs e (List.mem_cons_of_mem _ he)) _ x q h with h1 | h1
      · exact updInner_ts vocab data r e0 (hrs e0 (List.mem_cons_self _ _)) e0.2
          (fun _ hj => hj) acc x q h1
      · exact Or.inr h1
  intro x q h
  rw [updateTrainSet_unfold] at h
  exact houter r (fun _ he => he) (f, ts) x q h

theorem detect_rhymes_rhymes_eq (cfg : Config) (data : List Line) (vocab : Vocab)
    (useNgram update : Bool) (probs : Probs) (f : FreqTab) (ts : TrainSet) :
    (detect_rhymes cfg data vocab useNgram update probs f ts).rhymes =
      ((List.range data.length).foldl (detectLine cfg data vocab useNgram) ([], probs)).1 := by
  simp only [detect_rhymes]
  split_ifs <;> rfl

theorem detect_rhymes_f_eq (cfg : Config) (data : List Line) (vocab : Vocab)
    (useNgram update : Bool) (probs : Probs) (f : FreqTab) (ts : TrainSet) :
    (detect_rhymes cfg data vocab useNgram update probs f ts).f =
      if update then (updateTrainSet vocab data
        ((List.range data.length).foldl (detectLine cfg data vocab useNgram) ([], probs)).1
        f ts).1
      else f := by
  simp only [detect_rhymes]
  split_ifs <;> rfl

theorem detect_rhymes_ts_eq (cfg : Config) (data : List Line) (vocab : Vocab)
    (useNgram update : Bool) (probs : Probs) (f : FreqTab) (ts : TrainSet) :
    (detect_rhymes cfg data vocab useNgram update probs f ts).ts =
      if update then (updateTrainSet vocab data
        ((List.range data.length).foldl (detectLine cfg data vocab useNgram) ([], probs)).1
        f ts).2
      else ts := by
  simp only [detect_rhymes]
  split_ifs <;> rfl

/-- C6: no cross-poem pair (and, with `stanza_limit`, no cross-stanza
pair) ever enters the tables:
(1) every key counted into `f['wp']` by the frequency sweep comes from an
in-window pair of worded lines of one poem (and stanza);
(2) every pair of the rhymes map of any detection pass — transitive
closure included — joins lines of one poem (and stanza);
(3) after an update-mode pass every `f['wp']` key is an original key or
the word tuple of such a same-group rhymes pair;
(4) every training-set key is an original key or an n-gram/component
pair derived from the words of such a same-group rhymes pair. -/
theorem claim6_no_cross_poem (cfg : Config) (data : List Line) (vocab : Vocab)
    (useNgram update : Bool) (probs : Probs) (f : FreqTab) (ts : TrainSet)
    (f0 : FreqTab) (n0 : NTab) (h0 : ∀ z ∈ wpKeys f0, winPair cfg data z) :
    (∀ z ∈ wpKeys (overall_frequencies cfg data vocab f0 n0).1, winPair cfg data z) ∧
    (∀ x y, memLinked (detect_rhymes cfg data vocab useNgram update probs f ts).rhymes x y →
      sameGroup cfg data x y) ∧
    (∀ z ∈ wpKeys (detect_rhymes cfg data vocab useNgram update probs f ts).f,
      z ∈ wpKeys f ∨ ∃ i j, sameGroup cfg data i j ∧
        z = .p ((lineAt data i).word.getD "", (lineAt data j).word.getD "")) ∧
    (∀ x q, q ∈ tsKeys (detect_rhymes cfg data vocab useNgram update probs f ts).ts x →
      q ∈ tsKeys ts x ∨ ∃ i j, sameGroup cfg data i j ∧
        ((x = .str "g" ∧
          q = sortPair (vocabGet vocab ((lineAt data i).word.getD "")).2
            (vocabGet vocab ((lineAt data j).word.getD "")).2) ∨
         (∃ m, x = .num m ∧
          q = sortPair ((vocabGet vocab ((lineAt data i).word.getD "")).1.getD m "")
            ((vocabGet vocab ((lineAt data j).word.getD "")).1.getD m "")))) := by
  have hpure : rhymesPure cfg data
      ((List.range data.length).foldl (detectLine cfg data vocab useNgram) ([], probs)).1 :=
    detectSweep_pure cfg data vocab useNgram (List.range data.length) ([], probs)
      (fun x y h => absurd h (by rintro ⟨s, hs, _⟩; exact absurd hs (List.not_mem_nil _)))
  refine ⟨overall_frequencies_wp cfg data vocab f0 n0 h0, ?_, ?_, ?_⟩
  · intro x y h
    rw [detect_rhymes_rhymes_eq] at h
    exact hpure x y h
  · intro z hz
    rw [detect_rhymes_f_eq] at hz
    by_cases hupd : update
    · rw [if_pos hupd] at hz
      rcases updateTrainSet_wp vocab data _ f ts z hz with h1 | h1
      · exact Or.inl h1
      · obtain ⟨⟨i, j, hlink, _, heq⟩, _⟩ := h1
        exact Or.inr ⟨i, j, hpure i j hlink, heq⟩
    · rw [if_neg hupd] at hz
      exact Or.inl hz
  · intro x q hq
    rw [detect_rhymes_ts_eq] at hq
    by_cases hupd : update
    · rw [if_pos hupd] at hq
      rcases updateTrainSet_ts vocab data _ f ts x q hq with h1 | h1
      · exact Or.inl h1
      · obtain ⟨i, j, hlink, _, hshape⟩ := h1
        exact Or.inr ⟨i, j, hpure i j hlink, hshape⟩
    · rw [if_neg hupd] at hq
      exact Or.inl hq

/-- Witness for `claim6_no_cross_poem` at a concrete three-line poem. -/
theorem claim6_witness :
    winPair cfgWin1 corpusABA (TKey.p ("a", "b")) :=
  (claim6_no_cross_poem cfgWin1 corpusABA vocabAB false true [] [] [] [] []
    (fun z hz => absurd hz (List.not_mem_nil z))).1
    (TKey.p ("a", "b")) (by decide)

/-- C7 (amended): after the frequency sweep, every key of `f_wp` is a
sorted word pair seen within the window; but the defaultdict read inside
`_add_to_train_set` later inserts a zero-count key for every rhyme pair
the update walk hands it — transitive-closure pairs outside the window
and reversed (unsorted) tuples included — so after retraining `f_wp` may
hold keys never seen within the window, always with value 0. -/
theorem claim7_amended (cfg : Config) (data : List Line) (vocab : Vocab)
    (useNgram : Bool) (probs : Probs) (f : FreqTab) (ts : TrainSet)
    (f0 : FreqTab) (n0 : NTab) (h0 : ∀ z ∈ wpKeys f0, winPair cfg data z) :
    (∀ z ∈ wpKeys (overall_frequencies cfg data vocab f0 n0).1, winPair cfg data z) ∧
    (∀ z ∈ wpKeys (detect_rhymes cfg data vocab useNgram true probs f ts).f,
      z ∈ wpKeys f ∨
      (updWords data (detect_rhymes cfg data vocab useNgram true probs f ts).rhymes z ∧
        wpVal (detect_rhymes cfg data vocab useNgram true probs f ts).f z = some 0)) := by
  refine ⟨overall_frequencies_wp cfg data vocab f0 n0 h0, ?_⟩
  intro z hz
  rw [detect_rhymes_f_eq] at hz ⊢
  rw [detect_rhymes_rhymes_eq]
  rw [if_pos rfl] at hz ⊢
  exact updateTrainSet_wp vocab data _ f ts z hz

/-- The update-mode detection pass over the three-line a/b/a poem with
window 1 (the state `train_model` reaches in a retraining iteration). -/
def resABA7 : DetectResult :=
  detect_rhymes cfgWin1 corpusABA vocabAB false true []
    (overall_frequencies cfgWin1 corpusABA vocabAB [] []).1 []

/-- C7 counterexample: lines 0 and 2 of the a/b/a poem both end in `a`
and are two lines apart — outside window 1, so the sweep never counts
the pair (a, a).  The transitive closure still links them, and the
update walk's defaultdict read inserts the key `('a', 'a')` (count 0)
into `f['wp']`; the reversed tuple `('b', 'a')` is inserted the same
way. -/
theorem claim7_counterexample :
    (TKey.p ("a", "a")) ∈ wpKeys resABA7.f ∧
    (TKey.p ("b", "a")) ∈ wpKeys resABA7.f ∧
    wpVal resABA7.f (.p ("a", "a")) = some 0 ∧
    ¬ winPair cfgWin1 corpusABA (.p ("a", "a")) := by
  refine ⟨?_, ?_, ?_, ?_⟩
  · exact of_decide_eq_true (by with_unfolding_all rfl)
  · exact of_decide_eq_true (by with_unfolding_all rfl)
  · with_unfolding_all rfl
  · rintro ⟨i, j, hi, hj, hij, hwin, hp, hs, hw1, hw2, heq⟩
    have hi3 : i < 3 := hi
    have hj3 : j < 3 := hj
    have hwindow : cfgWin1.window = 1 := rfl
    interval_cases i <;> interval_cases j <;> revert heq <;> first | omega | decide

/-- Witness for `claim7_amended` at the four-line a/b/a/b poem. -/
theorem claim7_witness :
    winPair cfgWin1 corpusABAB (TKey.p ("a", "b")) :=
  (claim7_amended cfgWin1 corpusABAB vocabAB false [] [] [] [] []
    (fun z hz => absurd hz (List.not_mem_nil z))).1
    (TKey.p ("a", "b")) (by decide)

/-- The comparison `_probabilities` would report at a given state: Python
`==` between the freshly estimated table and the stored previous one. -/
def estEqB (st : TrainSt) : Bool :=
  probsEqB (probabilities st.f st.n st.ts st.probs).1 st.probs

/-- Entrywise containment: every stored probability entry of `p` is
present in `q` with the same value ("no table entry changed" reads as
this check in both directions). -/
def entriesSubB (p q : Probs) : Bool :=
  p.all (fun kv => kv.2.all (fun e =>
    decide (alookup ((alookup q kv.1).getD []) e.1 = some e.2)))

theorem probabilities_snd (f : FreqTab) (n : NTab) (ts : TrainSet) (p : Probs) :
    (probabilities f n ts p).2 = !probsEqB (probabilities f n ts p).1 p := rfl

theorem trainLoopAux_equilibrium (cfg : Config) (data : List Line) (vocab : Vocab) :
    ∀ (r iteration : Nat) (st : TrainSt),
      (trainLoopAux cfg data vocab r iteration st).2 = some TrainOutcome.equilibrium ↔
      ∃ j, j < r ∧ estEqB (loopStFrom cfg data vocab iteration st j) = true := by
  intro r
  induction r with
  | zero =>
    intro iteration st
    simp [trainLoopAux]
  | succ r ih =>
    intro iteration st
    simp only [trainLoopAux]
    by_cases heq : probsEqB (probabilities st.f st.n st.ts st.probs).1 st.probs = true
    · rw [if_pos (by rw [probabilities_snd, Bool.not_not]; exact heq)]
      constructor
      · intro _
        exact ⟨0, Nat.succ_pos r, heq⟩
      · intro _
        rfl
    · rw [if_neg (by rw [probabilities_snd, Bool.not_not]; exact fun hc => heq hc)]
      by_cases hr : r = 0
      · subst hr
        rw [if_pos rfl]
        constructor
        · intro hc
          exact absurd hc (by simp)
        · rintro ⟨j, hj, hje⟩
          interval_cases j
          exact absurd hje heq
      · rw [if_neg hr]
        rw [ih (iteration + 1) (detectStep cfg data vocab iteration
          ⟨st.f, st.n, st.ts, (probabilities st.f st.n st.ts st.probs).1⟩)]
        constructor
        · rintro ⟨j, hj, hje⟩
          exact ⟨j + 1, by omega, hje⟩
        · rintro ⟨j, hj, hje⟩
          cases j with
          | zero => exact absurd hje heq
          | succ j' => exact ⟨j', by omega, hje⟩

/-- C2 (amended): the training loop announces equilibrium and stops iff
at some iteration the freshly estimated nested table equals the stored
previous table-state under Python dict `==` — same keyspace keys
(including empty inner tables that score lookups inserted during
detection) with equal entries.  Full dict equality implies that no
stored entry changed (second conjunct), but not conversely: an inserted
empty keyspace makes the comparison report improvement with every entry
unchanged, as the counterexample shows. -/
theorem claim2_amended (cfg : Config) (data : List Line) (vocab : Vocab) (st : TrainSt) :
    ((train_iterations cfg data vocab st).2 = some TrainOutcome.equilibrium ↔
      ∃ j, j < cfg.max_iter ∧ estEqB (loopStFrom cfg data vocab 0 st j) = true) ∧
    (∀ p q : Probs, probsEqB p q = true →
      entriesSubB p q = true ∧ entriesSubB q p = true) := by
  constructor
  · exact trainLoopAux_equilibrium cfg data vocab cfg.max_iter 0 st
  · intro p q hpq
    unfold probsEqB at hpq
    rw [Bool.and_eq_true] at hpq
    obtain ⟨h1, h2⟩ := hpq
    constructor
    · unfold entriesSubB
      rw [List.all_eq_true] at h1 ⊢
      intro kv hkv
      have := h1 kv hkv
      rw [List.all_eq_true]
      intro e he
      cases hq : alookup q kv.1 with
      | none => rw [hq] at this; exact absurd this (by simp)
      | some d =>
        rw [hq] at this
        simp only at this
        unfold innerEqB at this
        rw [Bool.and_eq_true] at this
        obtain ⟨hin, _⟩ := this
        rw [List.all_eq_true] at hin
        simpa using hin e he
    · unfold entriesSubB
      rw [List.all_eq_true] at h2 ⊢
      intro kv hkv
      have := h2 kv hkv
      rw [List.all_eq_true]
      intro e he
      cases hp : alookup p kv.1 with
      | none => rw [hp] at this; exact absurd this (by simp)
      | some d =>
        rw [hp] at this
        simp only at this
        unfold innerEqB at this
        rw [Bool.and_eq_true] at this
        obtain ⟨hin, _⟩ := this
        rw [List.all_eq_true] at hin
        simpa using hin e he

/-- Training configuration for the equilibrium runs: window 5, n-grams
disabled, at most 3 iterations. -/
def cfgC2 : Config := ⟨5, 2, true, true, true, false, 0, 95/100, 95/100, 3⟩

/-- A two-line poem with line-final words `ba` / `da`. -/
def dataC2 : List Line := [⟨some "ba", 0, 0⟩, ⟨some "da", 0, 0⟩]

/-- Vocabulary giving the two words three-component fingerprints, so the
scorer probes position 2, which the training set never covers. -/
def vocabC2 : Vocab := [("ba", (["a", "b", "x"], "ba")), ("da", (["a", "d", "y"], "da"))]

/-- A training set over the n-gram keyspace and positions 0 and 1 only. -/
def tsC2 : TrainSet :=
  [(.str "g", [(("ba", "da"), 1)]), (.num 0, [(("a", "a"), 1)]), (.num 1, [(("b", "d"), 1)])]

/-- The training state entering the loop: corpus frequencies of
`dataC2`, the training set `tsC2`, empty probabilities. -/
def stC2 : TrainSt :=
  ⟨(overall_frequencies cfgC2 dataC2 vocabC2 [] []).1,
   (overall_frequencies cfgC2 dataC2 vocabC2 [] []).2, tsC2, []⟩

/-- The loop state entering iteration 2 (after one estimate + rebuild;
the rebuild's score lookups inserted the empty keyspace 2 into the
probability table). -/
def stC2after : TrainSt := loopStFrom cfgC2 dataC2 vocabC2 0 stC2 1

/-- C2 counterexample: entering iteration 2, the fresh estimate carries
exactly the same entries as the stored table in both directions — no
probability entry changed — yet `_probabilities` reports improvement
(the stored table has the extra empty keyspace 2 inserted by
`_rhyme_score` during the rebuild), and the loop terminates announcing
*no* equilibrium. -/
theorem claim2_counterexample :
    entriesSubB (probabilities stC2after.f stC2after.n stC2after.ts stC2after.probs).1
      stC2after.probs = true ∧
    entriesSubB stC2after.probs
      (probabilities stC2after.f stC2after.n stC2after.ts stC2after.probs).1 = true ∧
    (probabilities stC2after.f stC2after.n stC2after.ts stC2after.probs).2 = true ∧
    (train_iterations cfgC2 dataC2 vocabC2 stC2).2 = some TrainOutcome.noEquilibrium := by
  refine ⟨?_, ?_, ?_, ?_⟩ <;> with_unfolding_all rfl

/-- Witness for `claim2_amended` at a concrete table pair. -/
theorem claim2_witness :
    entriesSubB [(PKey.str "g", [(("a", "b"), (1 : ℚ))])]
      [(PKey.str "g", [(("a", "b"), (1 : ℚ))])] = true ∧
    entriesSubB [(PKey.str "g", [(("a", "b"), (1 : ℚ))])]
      [(PKey.str "g", [(("a", "b"), (1 : ℚ))])] = true :=
  (claim2_amended cfgC2 [] [] ⟨[], [], [], []⟩).2
    [(PKey.str "g", [(("a", "b"), (1 : ℚ))])]
    [(PKey.str "g", [(("a", "b"), (1 : ℚ))])]
    (by with_unfolding_all rfl)

end RhymeTagger
